import Mathlib

/-!
Verification development for the pyfroc evaluation engine.

Shallow embedding conventions:

* Python floats are modelled as exact rationals (`ℚ`).  The source computes
  Euclidean distances with `(...) ** 0.5`; every use of a distance in the
  program is either a comparison of two distances (sort keys) or a
  comparison of a distance against a nonnegative radius.  Both are preserved
  by squaring, so the embedding carries the squared distance `distSq` and
  compares squares (`sqrt d ≤ r ↔ d ≤ r ^ 2` for `0 ≤ r`, and
  `sqrt d ≤ sqrt e ↔ d ≤ e`).
* Python `sorted` is a stable sort; it is embedded as `List.insertionSort`
  with a `≤` key comparison, which is likewise stable (the element processed
  first is inserted last and placed before key-equal elements).
* Python dicts are modelled with structural key equality and
  insertion order (first occurrence of a key wins, `pyDedup`).
* The third-party `matching` library function
  `hospital_resident(residents, hospitals, optimal="hospital")` is not part
  of the repository; it is modelled from the spec as hospital-proposing
  deferred acceptance with capacity 1 (see `daStep`).
-/

/-- Immutable 3D point value, from `pyfroc/coords.py` (`Coordinates`).
Coordinates are exact rationals in the embedding. -/
structure Coordinates where
  x : ℚ
  y : ℚ
  z : ℚ
deriving DecidableEq

/-- Squared Euclidean distance between two points.  The source
(`Coordinates._distance`) returns the square root; all uses compare
distances with each other or with a radius, which squaring preserves. -/
def Coordinates.distSq (a b : Coordinates) : ℚ :=
  (a.x - b.x) ^ 2 + (a.y - b.y) ^ 2 + (a.z - b.z) ^ 2

/-- Ground-truth lesion from `pyfroc/signals.py` (`Lesion`): a sphere
(center plus radius) with a name. -/
structure Lesion where
  coords : Coordinates
  r : ℚ
  name : String
deriving DecidableEq

/-- Rater response from `pyfroc/signals.py` (`Response`): a sphere with a
confidence value.  Field order follows the dataclass layout
(`BaseLesion.coords`, `BaseResponse.confidence`, then `r`, `name`). -/
structure Response where
  coords : Coordinates
  confidence : ℚ
  r : ℚ
  name : String
deriving DecidableEq

instance : Inhabited Coordinates := ⟨⟨0, 0, 0⟩⟩
instance : Inhabited Lesion := ⟨⟨default, 1, ""⟩⟩
instance : Inhabited Response := ⟨⟨default, 0, 1, ""⟩⟩

/-- Distance between two signals (`Lesion.distance` / `Response.distance`
in the source), as a squared quantity; both are the symmetric Euclidean
distance between the centers. -/
def Lesion.distanceSq (les : Lesion) (c : Coordinates) : ℚ :=
  Coordinates.distSq les.coords c

/-- Containment test from `pyfroc/signals.py`
(`Response.is_true_positive`): the Euclidean distance from the response
center to the lesion center is at most the lesion radius.  Written on
squares: `sqrt d ≤ r` iff `0 ≤ r ∧ d ≤ r ^ 2`. -/
def Response.is_true_positive (resp : Response) (les : Lesion) : Bool :=
  decide (0 ≤ les.r ∧ Coordinates.distSq resp.coords les.coords ≤ les.r ^ 2)

/-- Projection of a response to a lesion with the same geometry and name,
from `pyfroc/signals.py` (`Response.to_lesion`). -/
def Response.to_lesion (resp : Response) : Lesion :=
  ⟨resp.coords, resp.r, resp.name⟩

/-- Lexicographic order on coordinates used by `sort_signals` in
`pyfroc/signals.py`: ascending by `z`, then `y`, then `x` (the Python sort
key is the tuple `(z, y, x)`). -/
def coordKeyLe (a b : Coordinates) : Prop :=
  a.z < b.z ∨ (a.z = b.z ∧ (a.y < b.y ∨ (a.y = b.y ∧ a.x ≤ b.x)))

instance : DecidableRel coordKeyLe := by
  intro a b; unfold coordKeyLe; infer_instance

/-- Canonical signal sort from `pyfroc/signals.py` (`sort_signals`): a
stable sort by the coordinate tuple `(z, y, x)`.  The Python function is
duck-typed over signals; the embedding takes the coordinate accessor as an
explicit argument. -/
def sort_signals {α : Type} (coords : α → Coordinates) (signals : List α) : List α :=
  signals.insertionSort (fun a b => coordKeyLe (coords a) (coords b))

/-- Keep the first occurrence of each (structurally equal) element,
dropping later duplicates; `seen` holds the elements already kept.  This is
the key-set behavior of the Python dict comprehension in `build_bidict`:
duplicate keys are silently collapsed onto the first occurrence. -/
def pyDedupAux {α : Type} [DecidableEq α] : List α → List α → List α
  | _, [] => []
  | seen, x :: xs =>
    if x ∈ seen then pyDedupAux seen xs
    else x :: pyDedupAux (x :: seen) xs

/-- Distinct elements of a list in first-occurrence order: the keys of the
dict built by `build_bidict` in `pyfroc/raters/within_lesion_rater.py`.
The dict maps each distinct signal to a fresh `Player`/`Hospital`; since
the players are anonymous, the embedding works with the deduplicated
signal lists and indexes players by position. -/
def pyDedup {α : Type} [DecidableEq α] (l : List α) : List α :=
  pyDedupAux [] l

/-- Preference lists built by `set_prefs_of_players` in
`pyfroc/raters/within_lesion_rater.py`.  For each lesion the preference
list ranks ALL responses (not only covered ones) by ascending distance,
and for each response all lesions by ascending distance; Python's `sorted`
is stable, so distance ties keep input order.  Returns
`(resPrefs, hospPrefs)` as lists of index lists.  If there are no
responses the function returns immediately, leaving every preference list
empty. -/
def set_prefs_of_players (responses : List Response) (lesions : List Lesion) :
    List (List Nat) × List (List Nat) :=
  if responses.length = 0 then
    (List.replicate responses.length [], List.replicate lesions.length [])
  else
    let hospPrefs := lesions.map (fun les =>
      (List.range responses.length).insertionSort (fun i j =>
        Coordinates.distSq les.coords (responses.getD i default).coords ≤
          Coordinates.distSq les.coords (responses.getD j default).coords))
    let resPrefs := responses.map (fun resp =>
      (List.range lesions.length).insertionSort (fun i j =>
        Coordinates.distSq resp.coords (lesions.getD i default).coords ≤
          Coordinates.distSq resp.coords (lesions.getD j default).coords))
    (resPrefs, hospPrefs)

/-- State of the deferred-acceptance run: residents (responses) and
hospitals (lesions) are identified by their position in the deduplicated
input lists; preference lists shrink as pairs are deleted, and the current
matching is kept on both sides. -/
structure DAState where
  resPrefs : List (List Nat)
  hospPrefs : List (List Nat)
  resMatch : List (Option Nat)
  hospMatch : List (Option Nat)
deriving DecidableEq

/-- Modelled from the spec: the `matching` library is an external
dependency, and the spec prescribes a deferred-acceptance (lesion- or
hospital-optimal) stable matching with lesion capacity 1.  A
hospital is free when it has no match; it can propose while its preference
list is nonempty.  This picks the first free hospital in list order. -/
def findFreeHosp (st : DAState) : Option Nat :=
  (List.range st.hospPrefs.length).find? (fun j =>
    (st.hospMatch.getD j none).isNone && !(st.hospPrefs.getD j []).isEmpty)

/-- Elements strictly after the first occurrence of `x` (the successors of
the just-accepted hospital in a resident's preference list). -/
def succAfterFirst (x : Nat) : List Nat → List Nat
  | [] => []
  | y :: ys => if y = x then ys else succAfterFirst x ys

/-- Truncate a list just after the first occurrence of `x` (the resident
forgets every hospital it likes less than its current match). -/
def keepThroughFirst (x : Nat) : List Nat → List Nat
  | [] => []
  | y :: ys => if y = x then [x] else y :: keepThroughFirst x ys

/-- Remove resident `i` from the preference lists of all hospitals in
`succs` (the symmetric half of the pair deletions). -/
def removeResFromHosps (i : Nat) (succs : List Nat) (hp : List (List Nat)) :
    List (List Nat) :=
  succs.foldl (fun hp j => hp.set j ((hp.getD j []).erase i)) hp

/-- Modelled from the spec: one round of hospital-proposing deferred
acceptance.  The first free hospital proposes to the favourite resident on
its (already pruned) preference list; the resident leaves any current
match and accepts, then deletes every hospital below the new match from
its own list and itself from those hospitals' lists.  The symmetric
deletions guarantee that a proposing hospital is always weakly preferred
to the resident's current match, so unconditional acceptance implements
deferred acceptance. -/
def daStep (st : DAState) : DAState :=
  match findFreeHosp st with
  | none => st
  | some j =>
    match (st.hospPrefs.getD j []).head? with
    | none => st
    | some i =>
      let st1 :=
        match st.resMatch.getD i none with
        | some j2 => { st with hospMatch := st.hospMatch.set j2 none }
        | none => st
      let st2 := { st1 with
        resMatch := st1.resMatch.set i (some j),
        hospMatch := st1.hospMatch.set j (some i) }
      let succs := succAfterFirst j (st2.resPrefs.getD i [])
      let st3 := { st2 with
        resPrefs := st2.resPrefs.set i (keepThroughFirst j (st2.resPrefs.getD i [])) }
      { st3 with hospPrefs := removeResFromHosps i succs st3.hospPrefs }

/-- Modelled from the spec: run deferred acceptance until no hospital is
free, with an explicit step budget.  Each step either matches a previously
unmatched resident or strictly shrinks a preference list, so
`daFuel` steps (see below) always suffice; the budget only makes the
recursion structural. -/
def daRun : Nat → DAState → DAState
  | 0, st => st
  | n + 1, st =>
    match findFreeHosp st with
    | none => st
    | some _ => daRun n (daStep st)

/-- Step budget dominating the deferred-acceptance measure
`(#unmatched residents) * (total preference length + 1) + total preference
length` for `R` residents and `H` hospitals with full preference lists. -/
def daFuel (R H : Nat) : Nat :=
  (R + 1) * (R * H + 2)

/-- Initial deferred-acceptance state for the (deduplicated) signal lists:
preference lists from `set_prefs_of_players`, nobody matched. -/
def initState (responses : List Response) (lesions : List Lesion) : DAState :=
  let prefs := set_prefs_of_players responses lesions
  { resPrefs := prefs.1
    hospPrefs := prefs.2
    resMatch := List.replicate responses.length none
    hospMatch := List.replicate lesions.length none }

/-- Full matching run invoked by `evaluate_case_responses` on the
deduplicated lists. -/
def runMatching (responses : List Response) (lesions : List Lesion) : DAState :=
  daRun (daFuel responses.length lesions.length) (initState responses lesions)

/-- Conversion of the matching result to signals, from
`mathcing_result2signals` in `pyfroc/raters/within_lesion_rater.py` (the
source spells the name with this typo).  Hospitals are visited in input
order; a matched pair is recorded as a true positive only if
`is_true_positive` holds.  False positives are the responses that are not
the first component of a recorded true-positive pair; the Python set
difference is materialised here in first-occurrence input order. -/
def mathcing_result2signals (st : DAState) (responses : List Response)
    (lesions : List Lesion) : List (Response × Lesion) × List Response :=
  let tps := (List.range lesions.length).filterMap (fun j =>
    match st.hospMatch.getD j none with
    | some i =>
      if (responses.getD i default).is_true_positive (lesions.getD j default) then
        some (responses.getD i default, lesions.getD j default)
      else
        none
    | none => none)
  (tps, responses.filter (fun resp => decide (resp ∉ tps.map Prod.fst)))

/-- Evaluation of one (case, rater) pair, from `evaluate_case_responses`
in `pyfroc/raters/within_lesion_rater.py`: deduplicate both signal lists
(the dict comprehension in `build_bidict` collapses duplicate keys), set
the preference lists, and if both sides are nonempty run the
hospital-optimal matching and convert the result; otherwise every
(distinct) response is a false positive and there are no true
positives. -/
def evaluate_case_responses (responses : List Response) (lesions : List Lesion) :
    List (Response × Lesion) × List Response :=
  let dResponses := pyDedup responses
  let dLesions := pyDedup lesions
  if 0 < dResponses.length ∧ 0 < dLesions.length then
    mathcing_result2signals (runMatching dResponses dLesions) dResponses dLesions
  else
    ([], dResponses)

/-- Decimal digit character (`'0'` through `'9'`). -/
def digitChar (n : Nat) : Char := Char.ofNat (48 + n)

/-- Digit test of the regex character class `[0-9]`. -/
def isDigitC (c : Char) : Bool := decide ('0' ≤ c ∧ c ≤ '9')

/-- Uppercase test of the regex character class `[A-Z]`. -/
def isUpperC (c : Char) : Bool := decide ('A' ≤ c ∧ c ≤ 'Z')

/-- Decimal digits of a natural number, most significant first, prepended
to `acc`; `fuel` bounds the recursion so the definition is structural (any
`fuel > n` is enough, since `n` at least halves each round). -/
def natDigitsCore : Nat → Nat → List Char → List Char
  | 0, _, acc => acc
  | fuel + 1, n, acc =>
    if n < 10 then digitChar n :: acc
    else natDigitsCore fuel (n / 10) (digitChar (n % 10) :: acc)

/-- Decimal digits of a natural number, most significant first. -/
def natDigits (n : Nat) : List Char := natDigitsCore (n + 1) n []

/-- Decimal rendering of a natural number. -/
def natToString (n : Nat) : String := String.mk (natDigits n)

/-- Rendering of a Python `int` by an f-string (used for `modality_id` in
`RaterCaseKey.to_path`). -/
def intToString (m : Int) : String :=
  if m < 0 then String.mk ('-' :: natDigits m.natAbs) else natToString m.natAbs

/-- Numeric value of a list of decimal digits (the Python `int()`
conversion applied to a regex group of `[0-9]+`). -/
def natOfDigits (ds : List Char) : Nat :=
  ds.foldl (fun a c => 10 * a + (c.toNat - 48)) 0

/-- Case identity key from `pyfroc/keys.py` (`CaseKey`): one imaging
series of one patient/study/modality. -/
structure CaseKey where
  patient_id : String
  study_date : String
  modality : String
  se_num : String
deriving DecidableEq

/-- Rater-and-case identity key from `pyfroc/keys.py` (`RaterCaseKey`). -/
structure RaterCaseKey where
  rater_name : String
  patient_id : String
  study_date : String
  modality : String
  modality_id : Int
  se_num : String
deriving DecidableEq

/-- Path encoding of a `CaseKey`, from `CaseKey.to_path`:
`"{patient_id}/{study_date}_{modality}/SE{se_num}"`. -/
def CaseKey.to_path (k : CaseKey) : String :=
  k.patient_id ++ "/" ++ k.study_date ++ "_" ++ k.modality ++ "/SE" ++ k.se_num

/-- Conversion to a rater key, from `CaseKey.to_ratercasekey`: the case
fields are copied and the rater name and modality instance id are
added. -/
def CaseKey.to_ratercasekey (k : CaseKey) (rater_name : String)
    (modality_id : Int) : RaterCaseKey :=
  ⟨rater_name, k.patient_id, k.study_date, k.modality, modality_id, k.se_num⟩

/-- Projection back to the case key, from `RaterCaseKey.to_casekey`: the
rater name and modality instance id are discarded. -/
def RaterCaseKey.to_casekey (k : RaterCaseKey) : CaseKey :=
  ⟨k.patient_id, k.study_date, k.modality, k.se_num⟩

/-- Path encoding of a `RaterCaseKey`, from `RaterCaseKey.to_path`:
`"{rater_name}/{patient_id}/{study_date}_{modality}{modality_id}/SE{se_num}"`
(note that the modality instance id is part of the path). -/
def RaterCaseKey.to_path (k : RaterCaseKey) : String :=
  k.rater_name ++ "/" ++ k.patient_id ++ "/" ++ k.study_date ++ "_" ++
    k.modality ++ intToString k.modality_id ++ "/SE" ++ k.se_num

/-- Modelled from the spec: the canonical `RaterCaseKey` encoding claimed
in §6, `"{rater_name}/{patient_id}/{study_date}_{modality}/SE{series_number}"`,
which does not mention the modality instance id. -/
def specRaterKeyEncode (k : RaterCaseKey) : String :=
  k.rater_name ++ "/" ++ k.patient_id ++ "/" ++ k.study_date ++ "_" ++
    k.modality ++ "/SE" ++ k.se_num

/-- Spec-words form of the `RaterCaseKey` encoding with the modality
instance id inserted between the modality and the series segment (the
encoding the code actually produces). -/
def specRaterKeyEncodeWithId (k : RaterCaseKey) : String :=
  k.rater_name ++ "/" ++ k.patient_id ++ "/" ++ k.study_date ++ "_" ++
    k.modality ++ intToString k.modality_id ++ "/SE" ++ k.se_num

/-- Exactly `n` characters satisfying `p`, returning the taken run and the
rest (the regex piece `[0-9]{8}` or `[A-Z]{2}`: a counted character
class cannot backtrack). -/
def takeCount (p : Char → Bool) : Nat → List Char → Option (List Char × List Char)
  | 0, cs => some ([], cs)
  | _ + 1, [] => none
  | n + 1, c :: cs =>
    if p c then (takeCount p n cs).map (fun g => (c :: g.1, g.2)) else none

/-- Maximal nonempty run of characters satisfying `p` (the regex piece
`[0-9]+`: greedy, and any shorter run would leave a character of the class
where the next literal is expected, so no backtracking can succeed). -/
def takeRun1 (p : Char → Bool) (cs : List Char) :
    Option (List Char × List Char) :=
  let g := cs.takeWhile p
  if g.isEmpty then none else some (g, cs.dropWhile p)

/-- Attempt of the `CaseKey.from_path` regex
`([^\/]+)\/([0-9]{8})_([A-Z]{2})\/SE([0-9]+)` at a fixed position.  The
leading `[^/]+` is greedy but is followed by the literal `/`, so it always
takes the run up to the first slash; the counted classes cannot backtrack;
the trailing `[0-9]+` is greedy and the match end is unanchored
(`re.match`), so trailing characters are ignored. -/
def tryCaseKeyAt (cs : List Char) : Option CaseKey :=
  let g1 := cs.takeWhile (fun c => c ≠ '/')
  if g1.isEmpty then none else
  match cs.dropWhile (fun c => c ≠ '/') with
  | '/' :: r1 =>
    match takeCount isDigitC 8 r1 with
    | some (g2, '_' :: r2) =>
      match takeCount isUpperC 2 r2 with
      | some (g3, '/' :: 'S' :: 'E' :: r3) =>
        match takeRun1 isDigitC r3 with
        | some (g4, _) =>
          some ⟨String.mk g1, String.mk g2, String.mk g3, String.mk g4⟩
        | none => none
      | _ => none
    | _ => none
  | _ => none

/-- Lazy-prefix loop of `CaseKey.from_path`: the pattern starts with a
non-greedy `.*?`, so `re.match` tries the rest of the pattern at position
0, then 1, and so on, succeeding at the first position where the tail
matches. -/
def caseKeyFromPathAux : List Char → Option CaseKey
  | [] => none
  | c :: cs =>
    match tryCaseKeyAt (c :: cs) with
    | some k => some k
    | none => caseKeyFromPathAux cs

/-- Pattern-based parser from `CaseKey.from_path` in `pyfroc/keys.py`; a
path that does not match the pattern yields no key. -/
def CaseKey.from_path (s : String) : Option CaseKey :=
  caseKeyFromPathAux s.data

/-- Attempt of the `RaterCaseKey.from_path` regex
`([^\/]+)\/([^\/]+)\/([0-9]{8})_([A-Z]{2})([0-9]+)\/SE([0-9]+)` at a fixed
position; the modality instance id group is converted with `int()`. -/
def tryRaterCaseKeyAt (cs : List Char) : Option RaterCaseKey :=
  let g1 := cs.takeWhile (fun c => c ≠ '/')
  if g1.isEmpty then none else
  match cs.dropWhile (fun c => c ≠ '/') with
  | '/' :: r1 =>
    let g2 := r1.takeWhile (fun c => c ≠ '/')
    if g2.isEmpty then none else
    match r1.dropWhile (fun c => c ≠ '/') with
    | '/' :: r2 =>
      match takeCount isDigitC 8 r2 with
      | some (g3, '_' :: r3) =>
        match takeCount isUpperC 2 r3 with
        | some (g4, r4) =>
          match takeRun1 isDigitC r4 with
          | some (g5, '/' :: 'S' :: 'E' :: r5) =>
            match takeRun1 isDigitC r5 with
            | some (g6, _) =>
              some ⟨String.mk g1, String.mk g2, String.mk g3, String.mk g4,
                Int.ofNat (natOfDigits g5), String.mk g6⟩
            | none => none
          | _ => none
        | none => none
      | _ => none
    | _ => none
  | _ => none

/-- Lazy-prefix loop of `RaterCaseKey.from_path`. -/
def raterCaseKeyFromPathAux : List Char → Option RaterCaseKey
  | [] => none
  | c :: cs =>
    match tryRaterCaseKeyAt (c :: cs) with
    | some k => some k
    | none => raterCaseKeyFromPathAux cs

/-- Pattern-based parser from `RaterCaseKey.from_path` in
`pyfroc/keys.py`. -/
def RaterCaseKey.from_path (s : String) : Option RaterCaseKey :=
  raterCaseKeyFromPathAux s.data

/-- Validity of a `CaseKey` for the path round trip: the fields produced
by DICOM metadata and accepted by the parser pattern — a nonempty
slash-free patient id, an 8-digit study date, a 2-letter uppercase
modality, and a nonempty all-digit series number. -/
def CaseKey.valid (k : CaseKey) : Prop :=
  k.patient_id.data ≠ [] ∧ (∀ c ∈ k.patient_id.data, c ≠ '/') ∧
  k.study_date.data.length = 8 ∧ (∀ c ∈ k.study_date.data, isDigitC c) ∧
  k.modality.data.length = 2 ∧ (∀ c ∈ k.modality.data, isUpperC c) ∧
  k.se_num.data ≠ [] ∧ (∀ c ∈ k.se_num.data, isDigitC c)

instance (k : CaseKey) : Decidable k.valid := by
  unfold CaseKey.valid; infer_instance

/-- Validity of a `RaterCaseKey` for the path round trip: a valid case
part plus a nonempty slash-free rater name and a nonnegative modality
instance id. -/
def RaterCaseKey.valid (k : RaterCaseKey) : Prop :=
  k.rater_name.data ≠ [] ∧ (∀ c ∈ k.rater_name.data, c ≠ '/') ∧
  k.patient_id.data ≠ [] ∧ (∀ c ∈ k.patient_id.data, c ≠ '/') ∧
  k.study_date.data.length = 8 ∧ (∀ c ∈ k.study_date.data, isDigitC c) ∧
  k.modality.data.length = 2 ∧ (∀ c ∈ k.modality.data, isUpperC c) ∧
  0 ≤ k.modality_id ∧
  k.se_num.data ≠ [] ∧ (∀ c ∈ k.se_num.data, isDigitC c)

instance (k : RaterCaseKey) : Decidable k.valid := by
  unfold RaterCaseKey.valid; infer_instance

/-- Evaluation orchestrator state from `pyfroc/loaders/base_loader.py`
(`BaseLoader`): the insertion-ordered mapping from case keys to the rater
case keys found for them, plus the filesystem collaborator
`read_responses` abstracted as a function from a directory path to the
responses stored there. -/
structure BaseLoader where
  root_dir_path : String
  entries : List (CaseKey × List RaterCaseKey)
  read_responses : String → List Response

/-- Response-side root directory (`BaseLoader._response_root_dir_path`);
`os.path.join` is modelled as slash concatenation. -/
def BaseLoader.response_root_dir_path (ld : BaseLoader) : String :=
  ld.root_dir_path ++ "/" ++ "responses"

/-- Reference-side root directory (`BaseLoader._reference_root_dir_path`). -/
def BaseLoader.reference_root_dir_path (ld : BaseLoader) : String :=
  ld.root_dir_path ++ "/" ++ "reference"

/-- Lesion directory of a case (`BaseLoader._lesion_dir_path`). -/
def BaseLoader.lesion_dir_path (ld : BaseLoader) (k : CaseKey) : String :=
  ld.reference_root_dir_path ++ "/" ++ k.to_path

/-- Response directory of a rater case (`BaseLoader._response_dir_path`). -/
def BaseLoader.response_dir_path (ld : BaseLoader) (k : RaterCaseKey) : String :=
  ld.response_root_dir_path ++ "/" ++ k.to_path

/-- Reference lesions of a case directory, from `BaseLoader.read_lesions`:
the responses stored there, projected to lesions. -/
def BaseLoader.read_lesions (ld : BaseLoader) (dir_path : String) : List Lesion :=
  (ld.read_responses dir_path).map Response.to_lesion

/-- Number of cases (`BaseLoader.__len__`). -/
def BaseLoader.len (ld : BaseLoader) : Nat := ld.entries.length

/-- Indexed access from `BaseLoader.__getitem__`: an index at least the
collection size raises `IndexError("Index out of range")`; otherwise the
case key at that position is returned together with its (canonically
sorted) lesions and per-rater (canonically sorted) responses. -/
def BaseLoader.getitem (ld : BaseLoader) (index : Nat) :
    Except String (CaseKey × List Lesion × List (RaterCaseKey × List Response)) :=
  if h : index ≥ ld.len then
    .error "Index out of range"
  else
    let e := ld.entries.get ⟨index, by unfold BaseLoader.len at h; omega⟩
    .ok (e.1,
      sort_signals Lesion.coords (ld.read_lesions (ld.lesion_dir_path e.1)),
      e.2.map (fun rk =>
        (rk, sort_signals Response.coords (ld.read_responses (ld.response_dir_path rk)))))

/-- Rater orchestrator from `pyfroc/raters/base_rater.py` (`BaseRater`):
holds a loader. -/
structure BaseRater where
  loader : BaseLoader

/-- Indexed access from `BaseRater.__getitem__`: a plain delegation to the
loader. -/
def BaseRater.getitem (rt : BaseRater) (key : Nat) :
    Except String (CaseKey × List Lesion × List (RaterCaseKey × List Response)) :=
  rt.loader.getitem key

/-- Tolerant float comparison from `math.isclose` with the default
`rel_tol=1e-9, abs_tol=0.0`, evaluated on exact rationals:
`|a - b| <= max(rel_tol * max(|a|, |b|), abs_tol)`. -/
def iscloseQ (a b : ℚ) : Bool :=
  decide (|a - b| ≤ max ((1 / 1000000000) * max |a| |b|) 0)

/-- Python value equality of lesions from `Lesion.__eq__` in
`pyfroc/signals.py`: exact equality of coordinates and name, tolerant
(`math.isclose`) equality of the radius. -/
def Lesion.pyEq (a b : Lesion) : Bool :=
  decide (a.coords = b.coords) && iscloseQ a.r b.r && decide (a.name = b.name)

/-- Python value equality of responses from `Response.__eq__`: exact
equality of coordinates, name and confidence, tolerant equality of the
radius. -/
def Response.pyEq (a b : Response) : Bool :=
  decide (a.coords = b.coords) && iscloseQ a.r b.r &&
    decide (a.name = b.name) && decide (a.confidence = b.confidence)

/-- CPython hash modulus for numeric values (`_PyHASH_MODULUS`,
`2^61 - 1`). -/
def pyHashMod : Nat := 2 ^ 61 - 1

/-- CPython hash of a nonnegative finite float: the float is the dyadic
rational `num / 2^k`, and its hash is `num * inverse(2^k)` modulo
`2^61 - 1`; since `2^61 ≡ 1`, the inverse of `2^k` is
`2^((61 - k % 61) % 61)`.  The dataclass-generated `__hash__` feeds this
value for each float field. -/
def pyHashFloat (x : ℚ) : Nat :=
  (x.num.toNat * 2 ^ ((61 - x.den.log2 % 61) % 61)) % pyHashMod

/-- The 64-bit truncation modulus of CPython hash arithmetic. -/
def M64 : Nat := 2 ^ 64

/-- CPython tuple-hash constant `_PyHASH_XXPRIME_1`. -/
def xxPrime1 : Nat := 11400714785074694791

/-- CPython tuple-hash constant `_PyHASH_XXPRIME_2`. -/
def xxPrime2 : Nat := 14029467366897019727

/-- CPython tuple-hash constant `_PyHASH_XXPRIME_5`. -/
def xxPrime5 : Nat := 2870177450012600261

/-- 64-bit rotate-left by 31 of `x < 2^64`: the low 33 bits move up by 31
places and the high 31 bits wrap to the bottom. -/
def rotl31 (x : Nat) : Nat :=
  (x % 2 ^ 33) * 2 ^ 31 + x / 2 ^ 33

/-- One lane of the CPython tuple hash (`tuplehash` in
`Objects/tupleobject.c`): `acc = rotl31(acc + lane * P2) * P1`, all modulo
`2^64`. -/
def laneStep (acc lane : Nat) : Nat :=
  (rotl31 ((acc + lane * xxPrime2) % M64) * xxPrime1) % M64

/-- Finishing step of the CPython tuple hash: add the length tag `t` to
the accumulator and remap the reserved value `2^64 - 1` to
`1546275796`. -/
def tupleFinish (t acc : Nat) : Nat :=
  let acc2 := (acc + t) % M64
  if acc2 = M64 - 1 then 1546275796 else acc2

/-- CPython tuple hash (the xxHash-based `tuplehash`): fold the lanes,
add the length tag, and remap the reserved value `2^64 - 1` to
`1546275796`.  Hash values are kept as unsigned 64-bit naturals; the
signed reinterpretation is a bijection, so hash inequality is
preserved. -/
def pyTupleHash (lanes : List Nat) : Nat :=
  tupleFinish (lanes.length ^^^ (xxPrime5 ^^^ 3527539))
    (lanes.foldl laneStep xxPrime5)

/-- Hash of a `Coordinates` value: the frozen dataclass has no custom
equality, so its generated `__hash__` is the tuple hash of the exact field
values. -/
def coordsPyHash (c : Coordinates) : Nat :=
  pyTupleHash [pyHashFloat c.x, pyHashFloat c.y, pyHashFloat c.z]

/-- Hash of a `Lesion`: `@dataclass(frozen=True)` generates
`__hash__ = hash((coords, r, name))` from the exact field values (the
custom `__eq__` does not change the generated hash).  The hash of the
string field is interpreter-seed dependent and is abstracted as the
parameter `hName`. -/
def lesionPyHash (hName : Nat) (les : Lesion) : Nat :=
  pyTupleHash [coordsPyHash les.coords, pyHashFloat les.r, hName]

/-- Hash of a `Response`: the generated `__hash__` over the exact field
tuple `(coords, confidence, r, name)`, with the string hash abstracted as
`hName`. -/
def responsePyHash (hName : Nat) (resp : Response) : Nat :=
  pyTupleHash [coordsPyHash resp.coords, pyHashFloat resp.confidence,
    pyHashFloat resp.r, hName]

/-- Strict order underlying a stable distance sort of indices: smaller
key first, ties broken by smaller index (that is, by input position). -/
def prefLexLt (d : Nat → ℚ) (i j : Nat) : Prop :=
  d i < d j ∨ (d i = d j ∧ i < j)

/-- Example lesion at the origin with radius 5 (spec scenario). -/
def exL5 : Lesion := ⟨⟨0, 0, 0⟩, 5, "L"⟩

/-- Example lesion at the origin with radius 1. -/
def exL1 : Lesion := ⟨⟨0, 0, 0⟩, 1, "L1"⟩

/-- Example response at distance 1 from the origin, confidence 0.9. -/
def exNear : Response := ⟨⟨1, 0, 0⟩, 9 / 10, 1, "A"⟩

/-- Example response at distance 5 from the origin. -/
def exFar : Response := ⟨⟨5, 0, 0⟩, 1, 1, "F"⟩

/-- Example response at distance 1 east of the origin. -/
def exTieA : Response := ⟨⟨1, 0, 0⟩, 1, 1, "A"⟩

/-- Example response at distance 1 west of the origin: the same distance
to the origin as `exTieA`. -/
def exTieB : Response := ⟨⟨-1, 0, 0⟩, 1, 1, "B"⟩

/-- Example case key with pattern-conforming fields. -/
def exCase : CaseKey := ⟨"pt01", "20240101", "CT", "3"⟩

/-- Example rater case key with pattern-conforming fields. -/
def exRater : RaterCaseKey := ⟨"rater01", "pt01", "20240101", "CT", 0, "3"⟩

/-- Example loader with a single case and no stored responses. -/
def exLoader : BaseLoader := ⟨"root", [(exCase, [exRater])], fun _ => []⟩

/-- Consistency invariant of the deferred-acceptance state for `R`
residents and `H` hospitals: the matching arrays have the right lengths,
hospital preference entries are resident indices, and a hospital holding a
resident is exactly that resident's current match (capacity 1). -/
structure DAInv (R H : Nat) (st : DAState) : Prop where
  rLen : st.resMatch.length = R
  hLen : st.hospMatch.length = H
  hpLen : st.hospPrefs.length = H
  hpBound : ∀ j i, i ∈ st.hospPrefs.getD j [] → i < R
  consist : ∀ j i, st.hospMatch.getD j none = some i →
    i < R ∧ st.resMatch.getD i none = some j

/-! Helper lemmas. -/

theorem stringMk_data (s : String) : String.mk s.data = s := by
  cases s; rfl

theorem mem_pyDedupAux {α : Type} [DecidableEq α] (x : α) (l seen : List α) :
    x ∈ pyDedupAux seen l ↔ x ∈ l ∧ x ∉ seen := by
  induction l generalizing seen with
  | nil => simp [pyDedupAux]
  | cons y ys ih =>
    by_cases hy : y ∈ seen
    · rw [pyDedupAux, if_pos hy, ih]
      constructor
      · rintro ⟨hx, hs⟩
        exact ⟨List.mem_cons_of_mem _ hx, hs⟩
      · rintro ⟨hx, hs⟩
        rcases List.mem_cons.mp hx with rfl | hx2
        · exact absurd hy hs
        · exact ⟨hx2, hs⟩
    · rw [pyDedupAux, if_neg hy]
      simp only [List.mem_cons, ih]
      constructor
      · rintro (rfl | ⟨hx, hns⟩)
        · exact ⟨Or.inl rfl, hy⟩
        · exact ⟨Or.inr hx, fun hc => hns (Or.inr hc)⟩
      · rintro ⟨rfl | hx, hs⟩
        · exact Or.inl rfl
        · by_cases hxy : x = y
          · exact Or.inl hxy
          · exact Or.inr ⟨hx, fun hc => hc.elim hxy hs⟩

theorem pyDedupAux_nodup {α : Type} [DecidableEq α] (l seen : List α) :
    (pyDedupAux seen l).Nodup := by
  induction l generalizing seen with
  | nil => simp [pyDedupAux]
  | cons y ys ih =>
    by_cases hy : y ∈ seen
    · rw [pyDedupAux, if_pos hy]
      exact ih seen
    · rw [pyDedupAux, if_neg hy]
      exact List.nodup_cons.mpr
        ⟨fun hc => ((mem_pyDedupAux y ys (y :: seen)).mp hc).2 (List.mem_cons_self y seen),
          ih (y :: seen)⟩

theorem pyDedup_nodup {α : Type} [DecidableEq α] (l : List α) :
    (pyDedup l).Nodup := pyDedupAux_nodup l []

theorem mem_pyDedup {α : Type} [DecidableEq α] (x : α) (l : List α) :
    x ∈ pyDedup l ↔ x ∈ l := by
  simp [pyDedup, mem_pyDedupAux]

theorem pyDedupAux_eq_self {α : Type} [DecidableEq α] (l seen : List α)
    (hl : l.Nodup) (hs : ∀ x ∈ l, x ∉ seen) : pyDedupAux seen l = l := by
  induction l generalizing seen with
  | nil => rfl
  | cons y ys ih =>
    rw [pyDedupAux, if_neg (hs y (List.mem_cons_self y ys))]
    congr 1
    refine ih (y :: seen) (List.nodup_cons.mp hl).2 (fun x hx hc => ?_)
    rcases List.mem_cons.mp hc with h | h
    · exact (List.nodup_cons.mp hl).1 (h ▸ hx)
    · exact hs x (List.mem_cons_of_mem _ hx) h

theorem pyDedup_eq_self {α : Type} [DecidableEq α] (l : List α) (hl : l.Nodup) :
    pyDedup l = l :=
  pyDedupAux_eq_self l [] hl (by simp)

/-! Claim C2: coverage invariant of the output. -/

/-- C2: for every input to `evaluate_case_responses` and every pair in the
returned true-positive list, `is_true_positive` holds — the
`mathcing_result2signals` readout records a matched pair only after the
containment test succeeds. -/
theorem C2_coverage (responses : List Response) (lesions : List Lesion)
    (resp : Response) (les : Lesion)
    (hmem : (resp, les) ∈ (evaluate_case_responses responses lesions).1) :
    resp.is_true_positive les = true := by
  simp only [evaluate_case_responses] at hmem
  split at hmem
  case isFalse => simp at hmem
  case isTrue hc =>
    simp only [mathcing_result2signals] at hmem
    obtain ⟨j, hj, hf⟩ := List.mem_filterMap.mp hmem
    split at hf
    · split at hf
      next hcov =>
        simp only [Option.some.injEq, Prod.mk.injEq] at hf
        obtain ⟨h1, h2⟩ := hf
        subst h1; subst h2
        exact hcov
      next => cases hf
    · cases hf

/-- C2 witness: the spec scenario lesion at the origin with radius 5 and
a response at distance 1 produce that pair as a true positive, and the
pair satisfies the containment test. -/
theorem C2_coverage_witness :
    ((exNear, exL5) ∈ (evaluate_case_responses [exNear] [exL5]).1) ∧
      Response.is_true_positive exNear exL5 = true :=
  ⟨by with_unfolding_all decide,
    C2_coverage [exNear] [exL5] exNear exL5 (by with_unfolding_all decide)⟩

/-! Decimal rendering lemmas. -/

theorem natDigitsCore_append (fuel : Nat) : ∀ n acc,
    natDigitsCore fuel n acc = natDigitsCore fuel n [] ++ acc := by
  induction fuel with
  | zero => intro n acc; rfl
  | succ fuel ih =>
    intro n acc
    by_cases h : n < 10
    · simp [natDigitsCore, if_pos h]
    · rw [natDigitsCore, if_neg h, natDigitsCore, if_neg h, ih (n / 10),
        ih (n / 10) [digitChar (n % 10)], List.append_assoc]
      rfl

theorem natDigitsCore_fuel (n : Nat) : ∀ f1 f2 acc, n < f1 → n < f2 →
    natDigitsCore f1 n acc = natDigitsCore f2 n acc := by
  induction n using Nat.strong_induction_on with
  | _ n ih =>
    intro f1 f2 acc h1 h2
    match f1, f2 with
    | fa + 1, fb + 1 =>
      by_cases h : n < 10
      · rw [natDigitsCore, if_pos h, natDigitsCore, if_pos h]
      · rw [natDigitsCore, if_neg h, natDigitsCore, if_neg h]
        exact ih (n / 10) (Nat.div_lt_self (by omega) (by omega)) fa fb _
          (by omega) (by omega)

theorem natDigits_step (n : Nat) :
    natDigits n = if n < 10 then [digitChar n]
      else natDigits (n / 10) ++ [digitChar (n % 10)] := by
  by_cases h : n < 10
  · rw [natDigits, natDigitsCore, if_pos h, if_pos h]
  · rw [natDigits, natDigitsCore, if_neg h, if_neg h, natDigitsCore_append,
      natDigitsCore_fuel (n / 10) n (n / 10 + 1) _
        (Nat.div_lt_self (by omega) (by omega)) (Nat.lt_succ_self _)]
    rfl

theorem natDigits_ne_nil (n : Nat) : natDigits n ≠ [] := by
  rw [natDigits_step]
  by_cases h : n < 10
  · simp [if_pos h]
  · simp [if_neg h]

theorem digitChar_isDigit {k : Nat} (hk : k < 10) : isDigitC (digitChar k) = true := by
  interval_cases k <;> decide

theorem digitChar_toNat {k : Nat} (hk : k < 10) : (digitChar k).toNat = 48 + k := by
  interval_cases k <;> decide

theorem digitChar_ne_slash {k : Nat} (hk : k < 10) : digitChar k ≠ '/' := by
  interval_cases k <;> decide

theorem natDigits_all_digits (n : Nat) : ∀ c ∈ natDigits n, isDigitC c = true := by
  induction n using Nat.strong_induction_on with
  | _ n ih =>
    intro c hc
    rw [natDigits_step] at hc
    by_cases h : n < 10
    · rw [if_pos h] at hc
      rcases List.mem_singleton.mp hc with rfl
      exact digitChar_isDigit h
    · rw [if_neg h] at hc
      rcases List.mem_append.mp hc with h2 | h2
      · exact ih (n / 10) (Nat.div_lt_self (by omega) (by omega)) c h2
      · rcases List.mem_singleton.mp h2 with rfl
        exact digitChar_isDigit (Nat.mod_lt _ (by omega))

theorem natDigits_ne_slash (n : Nat) : ∀ c ∈ natDigits n, c ≠ '/' := by
  intro c hc
  have hd := natDigits_all_digits n c hc
  intro rfl2
  rw [rfl2] at hd
  simp [isDigitC] at hd

theorem natOfDigits_append (xs ys : List Char) :
    natOfDigits (xs ++ ys) =
      ys.foldl (fun a c => 10 * a + (c.toNat - 48)) (natOfDigits xs) := by
  rw [natOfDigits, List.foldl_append]
  rfl

theorem natOfDigits_natDigits (n : Nat) : natOfDigits (natDigits n) = n := by
  induction n using Nat.strong_induction_on with
  | _ n ih =>
    rw [natDigits_step]
    by_cases h : n < 10
    · rw [if_pos h]
      show 10 * 0 + ((digitChar n).toNat - 48) = n
      rw [digitChar_toNat h]
      omega
    · rw [if_neg h, natOfDigits_append,
        ih (n / 10) (Nat.div_lt_self (by omega) (by omega))]
      show 10 * (n / 10) + ((digitChar (n % 10)).toNat - 48) = n
      rw [digitChar_toNat (Nat.mod_lt _ (by omega))]
      omega

/-! Claims C8 and C9, and the counterexample parts of C1, C4, C5, C6. -/

/-- C8 counterexample: for the key
`rater01/pt01/20240101_CT, modality_id 0, SE3` the encoded path is
`"rater01/pt01/20240101_CT0/SE3"`, not the claimed
`"rater01/pt01/20240101_CT/SE3"` — the modality instance id is part of
the path. -/
theorem C8_counterexample :
    RaterCaseKey.to_path exRater ≠ specRaterKeyEncode exRater := by
  decide

/-- C8 amended: the canonical encoding produced by
`RaterCaseKey.to_path` is
`"{rater_name}/{patient_id}/{study_date}_{modality}{modality_id}/SE{se_num}"`;
for no key does it coincide with the spec §6 encoding that omits the
modality instance id, because the rendered id is never empty. -/
theorem C8_amended_encoding (k : RaterCaseKey) :
    RaterCaseKey.to_path k = specRaterKeyEncodeWithId k ∧
      RaterCaseKey.to_path k ≠ specRaterKeyEncode k := by
  refine ⟨rfl, fun h => ?_⟩
  have hpos : 0 < (intToString k.modality_id).length := by
    rw [intToString]
    split
    · show 0 < ('-' :: natDigits k.modality_id.natAbs).length
      simp
    · show 0 < (natDigits k.modality_id.natAbs).length
      exact List.length_pos.mpr (natDigits_ne_nil _)
  have hlen := congrArg String.length h
  simp only [RaterCaseKey.to_path, specRaterKeyEncode, String.length_append] at hlen
  omega

/-- C9: indexed access on the loader: any index at least the number of
cases yields the explicit out-of-range error; any index below it yields
the case tuple (case key, sorted lesions, per-rater sorted responses) at
that position; the rater orchestrator delegates to the loader. -/
theorem C9_getitem_range (ld : BaseLoader) (i : Nat) :
    (i ≥ ld.len → ld.getitem i = .error "Index out of range") ∧
    (∀ h : i < ld.len,
      ld.getitem i = .ok ((ld.entries.get ⟨i, h⟩).1,
        sort_signals Lesion.coords
          (ld.read_lesions (ld.lesion_dir_path (ld.entries.get ⟨i, h⟩).1)),
        (ld.entries.get ⟨i, h⟩).2.map (fun rk =>
          (rk, sort_signals Response.coords
            (ld.read_responses (ld.response_dir_path rk)))))) ∧
    BaseRater.getitem ⟨ld⟩ i = ld.getitem i := by
  refine ⟨fun h => ?_, fun h => ?_, rfl⟩
  · rw [BaseLoader.getitem, dif_pos h]
  · rw [BaseLoader.getitem, dif_neg (by omega)]

/-- C9 witness: on a one-case loader, index 1 raises the out-of-range
error and index 0 returns the case tuple. -/
theorem C9_getitem_range_witness :
    exLoader.getitem 1 = .error "Index out of range" ∧
      (exLoader.getitem 0).isOk = true :=
  ⟨(C9_getitem_range exLoader 1).1 (by decide), by decide⟩

/-- C4 counterexample: on a response list with an exact duplicate and an
empty lesion list, `evaluate_case_responses` silently collapses the
duplicate (the dict in `build_bidict` keys by signal), so the output is
not `([], responses)`. -/
theorem C4_counterexample :
    evaluate_case_responses [exTieA, exTieA] [] ≠ ([], [exTieA, exTieA]) := by
  with_unfolding_all decide

/-- C4 amended: the empty-input law holds with the second component
restricted to duplicate-free response lists: `([], lesions)` yields
`([], [])`, and `(responses, [])` yields `([], responses)` in input order
when `responses` has no exact duplicates (otherwise the duplicates are
collapsed first). -/
theorem C4_empty_input_law (responses : List Response) (lesions : List Lesion)
    (hnd : responses.Nodup) :
    evaluate_case_responses [] lesions = ([], []) ∧
      evaluate_case_responses responses [] = ([], responses) := by
  constructor
  · have h0 : pyDedup ([] : List Response) = [] := rfl
    simp only [evaluate_case_responses, h0]
    rw [if_neg (by simp)]
  · have h0 : pyDedup ([] : List Lesion) = [] := rfl
    simp only [evaluate_case_responses, h0, pyDedup_eq_self responses hnd]
    rw [if_neg (by simp)]

/-- C4 witness: the amended empty-input law at a concrete duplicate-free
response list and a concrete lesion list. -/
theorem C4_empty_input_law_witness :
    evaluate_case_responses [] [exL5] = ([], []) ∧
      evaluate_case_responses [exNear] [] = ([], [exNear]) :=
  ⟨(C4_empty_input_law [exNear] [exL5] (by decide)).1,
    (C4_empty_input_law [exNear] [exL5] (by decide)).2⟩

/-- C5 counterexample: a duplicated covering response with one lesion is
not rejected: the engine silently collapses the duplicate and returns a
partition of the single distinct response (sizes 1 + 0, not 2). -/
theorem C5_counterexample :
    evaluate_case_responses [exTieA, exTieA] [exL5] = ([(exTieA, exL5)], []) ∧
      (evaluate_case_responses [exTieA, exTieA] [exL5]).1.length +
        (evaluate_case_responses [exTieA, exTieA] [exL5]).2.length ≠
        [exTieA, exTieA].length := by
  with_unfolding_all decide

/-- C1 counterexample: a lesion of radius 1 at the origin and a single
response at distance 5: the response is not a true positive for the
lesion, yet the lesion's preference list built by `set_prefs_of_players`
contains it — the list ranks all responses, with no admissibility
filter, so a lesion with zero admissible responses does not get an empty
preference list. -/
theorem C1_counterexample :
    (set_prefs_of_players [exFar] [exL1]).2 = [[0]] ∧
      Response.is_true_positive exFar exL1 = false ∧
      (set_prefs_of_players [exFar] [exL1]).2.getD 0 [] ≠ [] := by
  with_unfolding_all decide

/-- C6 counterexample: two responses at equal distance from one covering
lesion: swapping their input order changes which response is matched, so
the TP partition is not permutation-invariant (ties are broken by input
order, not by an order-independent rule). -/
theorem C6_counterexample :
    evaluate_case_responses [exTieA, exTieB] [exL5] = ([(exTieA, exL5)], [exTieB]) ∧
      evaluate_case_responses [exTieB, exTieA] [exL5] = ([(exTieB, exL5)], [exTieA]) ∧
      [exTieA, exTieB].Perm [exTieB, exTieA] ∧
      (exTieA, exL5) ≠ (exTieB, exL5) := by
  refine ⟨by with_unfolding_all decide, by with_unfolding_all decide,
    List.Perm.swap exTieB exTieA [], by with_unfolding_all decide⟩

/-! Stable-sort characterization lemmas. -/

theorem prefLexLt_asymm (d : Nat → ℚ) (a b : Nat)
    (h : prefLexLt d a b) : ¬ prefLexLt d b a := by
  rcases h with h | ⟨heq, hlt⟩ <;> rintro (h2 | ⟨heq2, hlt2⟩) <;>
    first
      | exact absurd h2 (not_lt.mpr (le_of_lt h))
      | omega
      | exact absurd h (by rw [heq2]; exact lt_irrefl _)
      | exact absurd h2 (by rw [heq]; exact lt_irrefl _)

theorem orderedInsert_pairwise_lex (d : Nat → ℚ) (x : Nat) (l : List Nat)
    (hl : l.Pairwise (prefLexLt d)) (hx : ∀ y ∈ l, x < y) :
    (List.orderedInsert (fun i j => d i ≤ d j) x l).Pairwise (prefLexLt d) := by
  induction l with
  | nil => simp [List.orderedInsert, prefLexLt]
  | cons b t ih =>
    rw [List.orderedInsert]
    by_cases h : d x ≤ d b
    · rw [if_pos h]
      refine List.pairwise_cons.mpr ⟨fun y hy => ?_, hl⟩
      rcases List.mem_cons.mp hy with rfl | hyt
      · rcases lt_or_eq_of_le h with hlt | heq
        · exact Or.inl hlt
        · exact Or.inr ⟨heq, hx y (List.mem_cons_self _ _)⟩
      · have hby := (List.pairwise_cons.mp hl).1 y hyt
        have hxy : d x ≤ d y := by
          rcases hby with h2 | ⟨h2, _⟩ <;> linarith
        rcases lt_or_eq_of_le hxy with hlt | heq
        · exact Or.inl hlt
        · exact Or.inr ⟨heq, hx y (List.mem_cons_of_mem _ hyt)⟩
    · rw [if_neg h]
      have hbx : d b < d x := not_le.mp h
      refine List.pairwise_cons.mpr ⟨fun y hy => ?_, ?_⟩
      · rcases List.mem_orderedInsert _ |>.mp hy with rfl | hyt
        · exact Or.inl hbx
        · exact (List.pairwise_cons.mp hl).1 y hyt
      · exact ih (List.pairwise_cons.mp hl).2
          (fun y hy => hx y (List.mem_cons_of_mem _ hy))

theorem insertionSort_pairwise_lex (d : Nat → ℚ) (l : List Nat)
    (hl : l.Pairwise (· < ·)) :
    (l.insertionSort (fun i j => d i ≤ d j)).Pairwise (prefLexLt d) := by
  induction l with
  | nil => simp [List.insertionSort]
  | cons x t ih =>
    rw [List.insertionSort]
    refine orderedInsert_pairwise_lex d x _ (ih (List.pairwise_cons.mp hl).2)
      (fun y hy => ?_)
    have hyt : y ∈ t := (List.perm_insertionSort _ t).mem_iff.mp hy
    exact (List.pairwise_cons.mp hl).1 y hyt

theorem pairwise_asymm_perm_eq {α : Type} {r : α → α → Prop}
    (hasymm : ∀ a b, r a b → ¬ r b a) :
    ∀ l₁ l₂ : List α, l₁.Perm l₂ → l₁.Pairwise r → l₂.Pairwise r → l₁ = l₂ := by
  intro l₁
  induction l₁ with
  | nil =>
    intro l₂ hp _ _
    exact (List.Perm.eq_nil hp.symm).symm
  | cons a t₁ ih =>
    intro l₂ hp h₁ h₂
    have ha : a ∈ l₂ := hp.subset (List.mem_cons_self _ _)
    cases l₂ with
    | nil => cases ha
    | cons b t₂ =>
      by_cases hab : a = b
      · subst hab
        rw [ih t₂ (List.Perm.cons_inv hp) (List.pairwise_cons.mp h₁).2
          (List.pairwise_cons.mp h₂).2]
      · have hat2 : a ∈ t₂ := by
          rcases List.mem_cons.mp ha with h | h
          · exact absurd h hab
          · exact h
        have hb : b ∈ a :: t₁ := hp.symm.subset (List.mem_cons_self _ _)
        have hbt1 : b ∈ t₁ := by
          rcases List.mem_cons.mp hb with h | h
          · exact absurd h.symm hab
          · exact h
        have hrab : r a b := (List.pairwise_cons.mp h₁).1 b hbt1
        have hrba : r b a := (List.pairwise_cons.mp h₂).1 a hat2
        exact absurd hrba (hasymm a b hrab)

/-! Claim C1 (amended): the preference lists rank every signal. -/

/-- C1 amended: whenever there is at least one response, each lesion's
preference list built by `set_prefs_of_players` is a permutation of ALL
response indices, ordered by ascending distance with ties broken by input
position, and symmetrically each response's preference list ranks all
lesion indices the same way.  There is no admissibility filter in the
preference lists; coverage is enforced only by the readout filter (claim
C2). -/
theorem C1_pref_lists_rank_all (responses : List Response) (lesions : List Lesion)
    (hne : responses ≠ []) :
    (∀ j, j < lesions.length →
      ((set_prefs_of_players responses lesions).2.getD j []).Perm
          (List.range responses.length) ∧
        ((set_prefs_of_players responses lesions).2.getD j []).Pairwise
          (prefLexLt (fun i => Coordinates.distSq (lesions.getD j default).coords
            (responses.getD i default).coords))) ∧
    (∀ i, i < responses.length →
      ((set_prefs_of_players responses lesions).1.getD i []).Perm
          (List.range lesions.length) ∧
        ((set_prefs_of_players responses lesions).1.getD i []).Pairwise
          (prefLexLt (fun j => Coordinates.distSq (responses.getD i default).coords
            (lesions.getD j default).coords))) := by
  have hcond : ¬ responses.length = 0 := fun h => hne (List.length_eq_zero.mp h)
  constructor
  · intro j hj
    have hj2 : j < (lesions.map (fun les =>
        (List.range responses.length).insertionSort (fun i j =>
          Coordinates.distSq les.coords (responses.getD i default).coords ≤
            Coordinates.distSq les.coords (responses.getD j default).coords))).length := by
      simpa using hj
    rw [set_prefs_of_players, if_neg hcond, List.getD_eq_getElem lesions default hj]
    simp only [List.getD_eq_getElem _ _ hj2, List.getElem_map]
    exact ⟨List.perm_insertionSort _ _,
      insertionSort_pairwise_lex
        (fun i => Coordinates.distSq lesions[j].coords (responses.getD i default).coords)
        (List.range responses.length) (List.pairwise_lt_range _)⟩
  · intro i hi
    have hi2 : i < (responses.map (fun resp =>
        (List.range lesions.length).insertionSort (fun i j =>
          Coordinates.distSq resp.coords (lesions.getD i default).coords ≤
            Coordinates.distSq resp.coords (lesions.getD j default).coords))).length := by
      simpa using hi
    rw [set_prefs_of_players, if_neg hcond, List.getD_eq_getElem responses default hi]
    simp only [List.getD_eq_getElem _ _ hi2, List.getElem_map]
    exact ⟨List.perm_insertionSort _ _,
      insertionSort_pairwise_lex
        (fun j => Coordinates.distSq responses[i].coords (lesions.getD j default).coords)
        (List.range lesions.length) (List.pairwise_lt_range _)⟩

/-- C1 amended witness: for two responses and one lesion the lesion's
preference list is a permutation of both response indices (in particular,
it is not restricted to covered responses). -/
theorem C1_pref_lists_rank_all_witness :
    ((set_prefs_of_players [exFar, exNear] [exL1]).2.getD 0 []).Perm
      (List.range 2) :=
  ((C1_pref_lists_rank_all [exFar, exNear] [exL1] (by with_unfolding_all decide)).1
    0 (by decide)).1

/-! Claim C6 (amended): determinism modulo the canonical sort. -/

theorem coordKeyLe_total (a b : Coordinates) : coordKeyLe a b ∨ coordKeyLe b a := by
  unfold coordKeyLe
  rcases lt_trichotomy a.z b.z with h | h | h
  · exact Or.inl (Or.inl h)
  · rcases lt_trichotomy a.y b.y with h2 | h2 | h2
    · exact Or.inl (Or.inr ⟨h, Or.inl h2⟩)
    · rcases le_total a.x b.x with h3 | h3
      · exact Or.inl (Or.inr ⟨h, Or.inr ⟨h2, h3⟩⟩)
      · exact Or.inr (Or.inr ⟨h.symm, Or.inr ⟨h2.symm, h3⟩⟩)
    · exact Or.inr (Or.inr ⟨h.symm, Or.inl h2⟩)
  · exact Or.inr (Or.inl h)

theorem coordKeyLe_trans (a b c : Coordinates)
    (h1 : coordKeyLe a b) (h2 : coordKeyLe b c) : coordKeyLe a c := by
  unfold coordKeyLe at h1 h2 ⊢
  rcases h1 with h1 | ⟨e1, h1⟩ <;> rcases h2 with h2 | ⟨e2, h2⟩
  · exact Or.inl (lt_trans h1 h2)
  · exact Or.inl (e2 ▸ h1)
  · exact Or.inl (e1 ▸ h2)
  · refine Or.inr ⟨e1.trans e2, ?_⟩
    rcases h1 with h1 | ⟨f1, h1⟩ <;> rcases h2 with h2 | ⟨f2, h2⟩
    · exact Or.inl (lt_trans h1 h2)
    · exact Or.inl (f2 ▸ h1)
    · exact Or.inl (f1 ▸ h2)
    · exact Or.inr ⟨f1.trans f2, le_trans h1 h2⟩

theorem coordKeyLe_antisymm (a b : Coordinates)
    (h1 : coordKeyLe a b) (h2 : coordKeyLe b a) : a = b := by
  obtain ⟨ax, ay, az⟩ := a
  obtain ⟨bx, byy, bz⟩ := b
  simp only [coordKeyLe] at h1 h2
  rcases h1 with h1 | ⟨e1, h1 | ⟨f1, h1⟩⟩ <;> rcases h2 with h2 | ⟨e2, h2 | ⟨f2, h2⟩⟩ <;>
    simp only [Coordinates.mk.injEq] <;>
    exact ⟨by linarith, by linarith, by linarith⟩

/-- Uniqueness of the canonical sort: on lists whose signals have
pairwise-distinct coordinates, `sort_signals` sends any two permutations
of the same multiset to the same list. -/
theorem sort_signals_eq_of_perm {α : Type} (coords : α → Coordinates)
    (l₁ l₂ : List α) (hp : l₁.Perm l₂) (hnd : (l₁.map coords).Nodup) :
    sort_signals coords l₁ = sort_signals coords l₂ := by
  haveI : IsTotal α (fun a b => coordKeyLe (coords a) (coords b)) :=
    ⟨fun a b => coordKeyLe_total _ _⟩
  haveI : IsTrans α (fun a b => coordKeyLe (coords a) (coords b)) :=
    ⟨fun a b c => coordKeyLe_trans _ _ _⟩
  have hs1 : (sort_signals coords l₁).Pairwise
      (fun a b => coordKeyLe (coords a) (coords b)) :=
    List.sorted_insertionSort _ l₁
  have hs2 : (sort_signals coords l₂).Pairwise
      (fun a b => coordKeyLe (coords a) (coords b)) :=
    List.sorted_insertionSort _ l₂
  have hmap1 : ((sort_signals coords l₁).map coords).Nodup :=
    (((List.perm_insertionSort _ l₁).map coords).nodup_iff).mpr hnd
  have hmap2 : ((sort_signals coords l₂).map coords).Nodup :=
    (((List.perm_insertionSort _ l₂).map coords).trans (hp.symm.map coords)
      |>.nodup_iff).mpr hnd
  have hne1 : (sort_signals coords l₁).Pairwise
      (fun a b => coords a ≠ coords b) := List.pairwise_map.mp hmap1
  have hne2 : (sort_signals coords l₂).Pairwise
      (fun a b => coords a ≠ coords b) := List.pairwise_map.mp hmap2
  refine pairwise_asymm_perm_eq (r := fun a b =>
      coordKeyLe (coords a) (coords b) ∧ coords a ≠ coords b)
    (fun a b hab hba => hab.2 (coordKeyLe_antisymm _ _ hab.1 hba.1))
    _ _ ?_ (hs1.and hne1) (hs2.and hne2)
  exact (List.perm_insertionSort _ l₁).trans (hp.trans
    (List.perm_insertionSort _ l₂).symm)

/-- C6 amended: the partition is permutation-invariant modulo the
canonical internal sort: when signals have pairwise-distinct coordinates
(so the canonical `(z, y, x)` order has no ties), sorting both lists with
`sort_signals` and then matching gives the same TP/FP output for every
permutation of the raw inputs.  (Without the canonical sort, distance
ties are broken by input order; see the counterexample.) -/
theorem C6_canonical_sort_determinism (R R2 : List Response) (L L2 : List Lesion)
    (hR : R.Perm R2) (hL : L.Perm L2)
    (hRc : (R.map Response.coords).Nodup) (hLc : (L.map Lesion.coords).Nodup) :
    evaluate_case_responses (sort_signals Response.coords R)
        (sort_signals Lesion.coords L) =
      evaluate_case_responses (sort_signals Response.coords R2)
        (sort_signals Lesion.coords L2) := by
  rw [sort_signals_eq_of_perm Response.coords R R2 hR hRc,
    sort_signals_eq_of_perm Lesion.coords L L2 hL hLc]

/-- C6 amended witness: the tie counterexample pair becomes
order-independent once the canonical sort is applied. -/
theorem C6_canonical_sort_determinism_witness :
    evaluate_case_responses (sort_signals Response.coords [exTieA, exTieB])
        (sort_signals Lesion.coords [exL5]) =
      evaluate_case_responses (sort_signals Response.coords [exTieB, exTieA])
        (sort_signals Lesion.coords [exL5]) :=
  C6_canonical_sort_determinism [exTieA, exTieB] [exTieB, exTieA] [exL5] [exL5]
    (List.Perm.swap exTieB exTieA []) (List.Perm.refl _)
    (by with_unfolding_all decide) (by with_unfolding_all decide)

/-! Deferred-acceptance invariant lemmas. -/

theorem getD_set_self {α : Type} (l : List α) (i : Nat) (v d : α)
    (h : i < l.length) : (l.set i v).getD i d = v := by
  rw [List.getD_eq_getElem?_getD, List.getElem?_set_self h]
  rfl

theorem getD_set_ne {α : Type} (l : List α) (i j : Nat) (v d : α)
    (h : i ≠ j) : (l.set i v).getD j d = l.getD j d := by
  rw [List.getD_eq_getElem?_getD, List.getElem?_set_ne h,
    ← List.getD_eq_getElem?_getD]

theorem getD_replicate {α : Type} (n j : Nat) (a : α) :
    (List.replicate n a).getD j a = a := by
  rw [List.getD_eq_getElem?_getD, List.getElem?_replicate]
  split <;> rfl

theorem getD_of_length_le {α : Type} (l : List α) (j : Nat) (d : α)
    (h : l.length ≤ j) : l.getD j d = d := by
  rw [List.getD_eq_getElem?_getD, List.getElem?_eq_none h]
  rfl

theorem removeResFromHosps_cons (i s : Nat) (ss : List Nat)
    (hp : List (List Nat)) :
    removeResFromHosps i (s :: ss) hp =
      removeResFromHosps i ss (hp.set s ((hp.getD s []).erase i)) := rfl

theorem removeResFromHosps_length (i : Nat) (succs : List Nat) :
    ∀ hp : List (List Nat), (removeResFromHosps i succs hp).length = hp.length := by
  induction succs with
  | nil => intro hp; rfl
  | cons s ss ih =>
    intro hp
    rw [removeResFromHosps_cons, ih, List.length_set]

theorem mem_removeResFromHosps (i : Nat) (succs : List Nat) :
    ∀ (hp : List (List Nat)) (j x : Nat),
      x ∈ (removeResFromHosps i succs hp).getD j [] → x ∈ hp.getD j [] := by
  induction succs with
  | nil => intro hp j x hx; exact hx
  | cons s ss ih =>
    intro hp j x hx
    have hx2 := ih (hp.set s ((hp.getD s []).erase i)) j x hx
    by_cases hs : s < hp.length
    · by_cases hjs : s = j
      · subst hjs
        rw [getD_set_self _ _ _ _ hs] at hx2
        exact List.mem_of_mem_erase hx2
      · rwa [getD_set_ne _ _ _ _ _ hjs] at hx2
    · rwa [List.set_eq_of_length_le (by omega)] at hx2

theorem findFreeHosp_some {st : DAState} {j : Nat}
    (h : findFreeHosp st = some j) :
    j < st.hospPrefs.length ∧ st.hospMatch.getD j none = none ∧
      st.hospPrefs.getD j [] ≠ [] := by
  have hmem := List.mem_of_find?_eq_some h
  have hpred := List.find?_some h
  simp only [Bool.and_eq_true, Option.isNone_iff_eq_none, Bool.not_eq_true',
    List.isEmpty_eq_false] at hpred
  exact ⟨List.mem_range.mp hmem, hpred.1, hpred.2⟩

theorem daStep_inv {R H : Nat} {st : DAState} (hinv : DAInv R H st) :
    DAInv R H (daStep st) := by
  unfold daStep
  split
  · exact hinv
  next j hfind =>
    obtain ⟨hjH, hjfree, hjprefs⟩ := findFreeHosp_some hfind
    split
    · exact hinv
    next i hhead =>
      have hiR : i < R :=
        hinv.hpBound j i (List.mem_of_mem_head? hhead)
      have hjmlen : j < st.hospMatch.length := by
        have := hinv.hLen; have := hinv.hpLen; omega
      have himlen : i < st.resMatch.length := by
        have := hinv.rLen; omega
      cases hres : st.resMatch.getD i none with
      | none =>
        refine ⟨?_, ?_, ?_, ?_, ?_⟩
        · show (st.resMatch.set i (some j)).length = R
          rw [List.length_set]; exact hinv.rLen
        · show (st.hospMatch.set j (some i)).length = H
          rw [List.length_set]; exact hinv.hLen
        · show (removeResFromHosps i _ st.hospPrefs).length = H
          rw [removeResFromHosps_length]; exact hinv.hpLen
        · intro j0 i0 hmem0
          exact hinv.hpBound j0 i0 (mem_removeResFromHosps _ _ _ _ _ hmem0)
        · intro j0 i0 hm
          by_cases hj0 : j0 = j
          · subst hj0
            rw [show ((st.hospMatch.set j0 (some i)).getD j0 none) = some i from
              getD_set_self _ _ _ _ hjmlen] at hm
            obtain rfl : i = i0 := by injection hm
            refine ⟨hiR, ?_⟩
            show (st.resMatch.set i (some j0)).getD i none = some j0
            rw [getD_set_self _ _ _ _ himlen]
          · rw [show ((st.hospMatch.set j (some i)).getD j0 none) =
                st.hospMatch.getD j0 none from
                  getD_set_ne _ _ _ _ _ (fun h2 => hj0 h2.symm)] at hm
            obtain ⟨hi0R, hrm⟩ := hinv.consist j0 i0 hm
            refine ⟨hi0R, ?_⟩
            by_cases hii : i = i0
            · subst hii
              rw [hrm] at hres; cases hres
            · show (st.resMatch.set i (some j)).getD i0 none = some j0
              rw [getD_set_ne _ _ _ _ _ hii]
              exact hrm
      | some j2 =>
        refine ⟨?_, ?_, ?_, ?_, ?_⟩
        · show (st.resMatch.set i (some j)).length = R
          rw [List.length_set]; exact hinv.rLen
        · show ((st.hospMatch.set j2 none).set j (some i)).length = H
          rw [List.length_set, List.length_set]; exact hinv.hLen
        · show (removeResFromHosps i _ st.hospPrefs).length = H
          rw [removeResFromHosps_length]; exact hinv.hpLen
        · intro j0 i0 hmem0
          exact hinv.hpBound j0 i0 (mem_removeResFromHosps _ _ _ _ _ hmem0)
        · intro j0 i0 hm
          by_cases hj0 : j0 = j
          · subst hj0
            rw [show (((st.hospMatch.set j2 none).set j0 (some i)).getD j0 none) =
                some i from
              getD_set_self _ _ _ _ (by rw [List.length_set]; exact hjmlen)] at hm
            obtain rfl : i = i0 := by injection hm
            refine ⟨hiR, ?_⟩
            show (st.resMatch.set i (some j0)).getD i none = some j0
            rw [getD_set_self _ _ _ _ himlen]
          · rw [show (((st.hospMatch.set j2 none).set j (some i)).getD j0 none) =
                (st.hospMatch.set j2 none).getD j0 none from
                  getD_set_ne _ _ _ _ _ (fun h2 => hj0 h2.symm)] at hm
            by_cases hj2 : j0 = j2
            · subst hj2
              by_cases hlt : j0 < st.hospMatch.length
              · rw [getD_set_self _ _ _ _ hlt] at hm; cases hm
              · rw [List.set_eq_of_length_le (by omega),
                  getD_of_length_le _ _ _ (by omega)] at hm
                cases hm
            · rw [getD_set_ne _ _ _ _ _ (fun h2 => hj2 h2.symm)] at hm
              obtain ⟨hi0R, hrm⟩ := hinv.consist j0 i0 hm
              refine ⟨hi0R, ?_⟩
              by_cases hii : i = i0
              · subst hii
                rw [hrm] at hres
                have : j0 = j2 := by injection hres
                exact absurd this hj2
              · show (st.resMatch.set i (some j)).getD i0 none = some j0
                rw [getD_set_ne _ _ _ _ _ hii]
                exact hrm

theorem daRun_inv {R H : Nat} (fuel : Nat) {st : DAState} (hinv : DAInv R H st) :
    DAInv R H (daRun fuel st) := by
  induction fuel generalizing st with
  | zero => exact hinv
  | succ n ih =>
    unfold daRun
    split
    · exact hinv
    · exact ih (daStep_inv hinv)

theorem set_prefs_hosp_length (responses : List Response) (lesions : List Lesion) :
    (set_prefs_of_players responses lesions).2.length = lesions.length := by
  rw [set_prefs_of_players]
  split
  · rw [List.length_replicate]
  · rw [List.length_map]

theorem set_prefs_hosp_bound (responses : List Response) (lesions : List Lesion) :
    ∀ j i, i ∈ (set_prefs_of_players responses lesions).2.getD j [] →
      i < responses.length := by
  intro j i hmem
  rw [set_prefs_of_players] at hmem
  split at hmem
  · by_cases hj : j < lesions.length
    · rw [List.getD_eq_getElem _ _ (by simpa using hj)] at hmem
      simp at hmem
    · rw [getD_of_length_le _ _ _ (by simpa using not_lt.mp hj)] at hmem
      cases hmem
  · by_cases hj : j < lesions.length
    · rw [List.getD_eq_getElem _ _ (by simpa using hj)] at hmem
      rw [List.getElem_map] at hmem
      have := (List.perm_insertionSort _ _).mem_iff.mp hmem
      exact List.mem_range.mp this
    · rw [getD_of_length_le _ _ _ (by simpa using not_lt.mp hj)] at hmem
      cases hmem

theorem initState_inv (responses : List Response) (lesions : List Lesion) :
    DAInv responses.length lesions.length (initState responses lesions) := by
  refine ⟨?_, ?_, ?_, ?_, ?_⟩
  · show (List.replicate responses.length (none : Option Nat)).length = _
    rw [List.length_replicate]
  · show (List.replicate lesions.length (none : Option Nat)).length = _
    rw [List.length_replicate]
  · exact set_prefs_hosp_length responses lesions
  · exact set_prefs_hosp_bound responses lesions
  · intro j i hm
    rw [show ((initState responses lesions).hospMatch.getD j none) = none from
      getD_replicate _ _ _] at hm
    cases hm

theorem runMatching_inv (responses : List Response) (lesions : List Lesion) :
    DAInv responses.length lesions.length (runMatching responses lesions) :=
  daRun_inv _ (initState_inv responses lesions)

/-! Partition lemmas for the matching readout. -/

theorem length_filter_split {α : Type} (p : α → Bool) (l : List α) :
    (l.filter p).length + (l.filter (fun x => !(p x))).length = l.length := by
  induction l with
  | nil => rfl
  | cons a t ih =>
    rw [List.filter_cons, List.filter_cons]
    cases h : p a <;> simp only [h, Bool.not_false, Bool.not_true, if_pos, if_neg,
      Bool.false_eq_true, if_false, if_true, List.length_cons] <;> omega

theorem filter_not_mem_length {α : Type} [DecidableEq α] (l s : List α)
    (hl : l.Nodup) (hs : s.Nodup) (hsub : ∀ x ∈ s, x ∈ l) :
    (l.filter (fun x => decide (x ∉ s))).length + s.length = l.length := by
  have hsplit := length_filter_split (fun x => decide (x ∈ s)) l
  have hperm : (l.filter (fun x => decide (x ∈ s))).Perm s := by
    rw [List.perm_ext_iff_of_nodup (hl.filter _) hs]
    intro a
    simp only [List.mem_filter, decide_eq_true_eq]
    exact ⟨fun h => h.2, fun h => ⟨hsub a h, h⟩⟩
  have hlen := hperm.length_eq
  have hpred : (fun x => decide (x ∉ s)) = (fun x => !(decide (x ∈ s))) := by
    funext x; rw [decide_not]
  rw [hpred]
  omega

theorem matched_entry (st : DAState) (R : List Response) (L : List Lesion)
    (j : Nat) (p : Response × Lesion)
    (hf : (match st.hospMatch.getD j none with
      | some i =>
        if (R.getD i default).is_true_positive (L.getD j default) then
          some (R.getD i default, L.getD j default)
        else none
      | none => none) = some p) :
    ∃ i, st.hospMatch.getD j none = some i ∧
      p = (R.getD i default, L.getD j default) := by
  split at hf
  next i hi =>
    split at hf
    · exact ⟨i, hi, (Option.some_inj.mp hf).symm⟩
    · cases hf
  next => cases hf

theorem mathcing_partition (st : DAState) (R : List Response) (L : List Lesion)
    (hRnd : R.Nodup) (hinv : DAInv R.length L.length st) :
    ((mathcing_result2signals st R L).1.map Prod.fst).Nodup ∧
      (∀ resp ∈ (mathcing_result2signals st R L).1.map Prod.fst, resp ∈ R) ∧
      ((mathcing_result2signals st R L).2 =
        R.filter (fun resp =>
          decide (resp ∉ (mathcing_result2signals st R L).1.map Prod.fst))) ∧
      ((mathcing_result2signals st R L).1.length +
          (mathcing_result2signals st R L).2.length = R.length) := by
  have hsub : ∀ resp ∈ (mathcing_result2signals st R L).1.map Prod.fst, resp ∈ R := by
    intro resp hmem
    obtain ⟨p, hp, rfl⟩ := List.mem_map.mp hmem
    obtain ⟨j, hj, hf⟩ := List.mem_filterMap.mp hp
    obtain ⟨i, hmi, rfl⟩ := matched_entry st R L j p hf
    obtain ⟨hiR, _⟩ := hinv.consist j i hmi
    show R.getD i default ∈ R
    rw [List.getD_eq_getElem _ _ hiR]
    exact List.getElem_mem hiR
  have hnd : ((mathcing_result2signals st R L).1.map Prod.fst).Nodup := by
    show (((List.range L.length).filterMap _).map Prod.fst).Nodup
    rw [List.map_filterMap]
    refine List.Nodup.filterMap ?_ (List.nodup_range _)
    intro a a' b hb hb'
    rw [Option.mem_def, Option.map_eq_some'] at hb hb'
    obtain ⟨p, hfp, hpb⟩ := hb
    obtain ⟨p', hfp', hpb'⟩ := hb'
    obtain ⟨i, hmi, rfl⟩ := matched_entry st R L a p hfp
    obtain ⟨i', hmi', rfl⟩ := matched_entry st R L a' p' hfp'
    obtain ⟨hiR, hri⟩ := hinv.consist a i hmi
    obtain ⟨hiR', hri'⟩ := hinv.consist a' i' hmi'
    have hgd : R.getD i default = R.getD i' default := by
      have h1 : R.getD i default = b := hpb
      have h2 : R.getD i' default = b := hpb'
      rw [h1, h2]
    rw [List.getD_eq_getElem _ _ hiR, List.getD_eq_getElem _ _ hiR'] at hgd
    obtain rfl : i = i' := (List.Nodup.getElem_inj_iff hRnd).mp hgd
    rw [hri] at hri'
    exact Option.some_inj.mp hri'
  refine ⟨hnd, hsub, rfl, ?_⟩
  have hkey := filter_not_mem_length R
    ((mathcing_result2signals st R L).1.map Prod.fst) hRnd hnd hsub
  have hmaplen : ((mathcing_result2signals st R L).1.map Prod.fst).length =
      (mathcing_result2signals st R L).1.length := List.length_map _ _
  have hfp : (mathcing_result2signals st R L).2 =
      R.filter (fun resp =>
        decide (resp ∉ (mathcing_result2signals st R L).1.map Prod.fst)) := rfl
  rw [hfp]
  omega

theorem evaluate_partition (responses : List Response) (lesions : List Lesion) :
    ((evaluate_case_responses responses lesions).1.map Prod.fst).Nodup ∧
      (∀ resp ∈ (evaluate_case_responses responses lesions).1.map Prod.fst,
        resp ∈ pyDedup responses) ∧
      ((evaluate_case_responses responses lesions).2 =
        (pyDedup responses).filter (fun resp =>
          decide (resp ∉ (evaluate_case_responses responses lesions).1.map Prod.fst))) ∧
      ((evaluate_case_responses responses lesions).1.length +
          (evaluate_case_responses responses lesions).2.length =
        (pyDedup responses).length) := by
  by_cases hc : 0 < (pyDedup responses).length ∧ 0 < (pyDedup lesions).length
  · have he : evaluate_case_responses responses lesions =
        mathcing_result2signals (runMatching (pyDedup responses) (pyDedup lesions))
          (pyDedup responses) (pyDedup lesions) := by
      simp only [evaluate_case_responses]
      rw [if_pos hc]
    rw [he]
    exact mathcing_partition _ _ _ (pyDedup_nodup responses) (runMatching_inv _ _)
  · have he : evaluate_case_responses responses lesions = ([], pyDedup responses) := by
      simp only [evaluate_case_responses]
      rw [if_neg hc]
    rw [he]
    refine ⟨by simp, by simp, ?_, by simp⟩
    show pyDedup responses = (pyDedup responses).filter _
    refine (List.filter_eq_self.mpr ?_).symm
    intro a ha
    simp

/-! Claims C3 and C5 (amended). -/

/-- C3: for duplicate-free inputs the evaluation returns a complete
partition: the TP and FP counts sum to the number of responses, a
response is a TP first component exactly when it is not a false positive,
and neither list repeats a response.  The embedding is a total function,
so the call never fails. -/
theorem C3_partition_completeness (responses : List Response) (lesions : List Lesion)
    (h1 : responses.Nodup) (_h2 : lesions.Nodup) :
    ((evaluate_case_responses responses lesions).1.length +
        (evaluate_case_responses responses lesions).2.length = responses.length) ∧
      (∀ resp ∈ responses,
        (resp ∈ (evaluate_case_responses responses lesions).1.map Prod.fst ↔
          resp ∉ (evaluate_case_responses responses lesions).2)) ∧
      ((evaluate_case_responses responses lesions).1.map Prod.fst).Nodup ∧
      (evaluate_case_responses responses lesions).2.Nodup := by
  obtain ⟨hnd, hsub, hfp, hlen⟩ := evaluate_partition responses lesions
  rw [pyDedup_eq_self responses h1] at hsub hfp hlen
  refine ⟨hlen, ?_, hnd, ?_⟩
  · intro resp hresp
    constructor
    · intro htp hfpmem
      rw [hfp] at hfpmem
      have hx := List.mem_filter.mp hfpmem
      rw [decide_eq_true_eq] at hx
      exact hx.2 htp
    · intro hnfp
      by_contra htp
      apply hnfp
      rw [hfp]
      exact List.mem_filter.mpr ⟨hresp, by simpa using htp⟩
  · rw [hfp]
    exact h1.filter _

/-- C3 witness: two distinct responses and one lesion give a partition of
size 2. -/
theorem C3_partition_completeness_witness :
    (evaluate_case_responses [exNear, exFar] [exL5]).1.length +
        (evaluate_case_responses [exNear, exFar] [exL5]).2.length = 2 :=
  (C3_partition_completeness [exNear, exFar] [exL5]
    (by with_unfolding_all decide) (by decide)).1

/-- C5 amended: for every input (duplicates included) the engine returns
a partition of the deduplicated responses and never fails: duplicates are
silently collapsed, not rejected. -/
theorem C5_silent_collapse (responses : List Response) (lesions : List Lesion) :
    (evaluate_case_responses responses lesions).1.length +
        (evaluate_case_responses responses lesions).2.length =
      (pyDedup responses).length :=
  (evaluate_partition responses lesions).2.2.2

/-! Parser lemmas for the key round trip. -/

theorem takeWhile_all_append {p : Char → Bool} (xs : List Char) (y : Char)
    (ys : List Char) (hall : ∀ c ∈ xs, p c = true) (hy : p y = false) :
    (xs ++ y :: ys).takeWhile p = xs ∧ (xs ++ y :: ys).dropWhile p = y :: ys := by
  induction xs with
  | nil =>
    rw [List.nil_append, List.takeWhile_cons, List.dropWhile_cons, hy]
    simp
  | cons a t ih =>
    have hpa : p a = true := hall a (List.mem_cons_self _ _)
    obtain ⟨h1, h2⟩ := ih (fun c hc => hall c (List.mem_cons_of_mem _ hc))
    rw [List.cons_append, List.takeWhile_cons, List.dropWhile_cons, hpa]
    simp only [if_pos, h1, h2]
    exact ⟨trivial, trivial⟩

theorem takeWhile_all {p : Char → Bool} (xs : List Char)
    (hall : ∀ c ∈ xs, p c = true) :
    xs.takeWhile p = xs ∧ xs.dropWhile p = [] := by
  induction xs with
  | nil => exact ⟨rfl, rfl⟩
  | cons a t ih =>
    have hpa : p a = true := hall a (List.mem_cons_self _ _)
    obtain ⟨h1, h2⟩ := ih (fun c hc => hall c (List.mem_cons_of_mem _ hc))
    rw [List.takeWhile_cons, List.dropWhile_cons, hpa]
    simp only [if_pos, h1, h2]
    exact ⟨trivial, trivial⟩

theorem takeCount_append {p : Char → Bool} (xs rest : List Char)
    (hall : ∀ c ∈ xs, p c = true) :
    takeCount p xs.length (xs ++ rest) = some (xs, rest) := by
  induction xs with
  | nil => rfl
  | cons a t ih =>
    have hpa : p a = true := hall a (List.mem_cons_self _ _)
    rw [List.length_cons, List.cons_append, takeCount, if_pos hpa,
      ih (fun c hc => hall c (List.mem_cons_of_mem _ hc))]
    rfl

theorem takeRun1_append {p : Char → Bool} (xs : List Char) (y : Char)
    (ys : List Char) (hne : xs ≠ []) (hall : ∀ c ∈ xs, p c = true)
    (hy : p y = false) :
    takeRun1 p (xs ++ y :: ys) = some (xs, y :: ys) := by
  obtain ⟨h1, h2⟩ := takeWhile_all_append xs y ys hall hy
  rw [takeRun1]
  simp only [h1, h2]
  rw [if_neg (by simp [List.isEmpty_iff, hne])]

theorem takeRun1_all {p : Char → Bool} (xs : List Char) (hne : xs ≠ [])
    (hall : ∀ c ∈ xs, p c = true) :
    takeRun1 p xs = some (xs, []) := by
  obtain ⟨h1, h2⟩ := takeWhile_all xs hall
  rw [takeRun1]
  simp only [h1, h2]
  rw [if_neg (by simp [List.isEmpty_iff, hne])]

theorem tryCaseKeyAt_build (p d m s : List Char)
    (hpne : p ≠ []) (hpns : ∀ c ∈ p, c ≠ '/')
    (hdlen : d.length = 8) (hdall : ∀ c ∈ d, isDigitC c = true)
    (hmlen : m.length = 2) (hmall : ∀ c ∈ m, isUpperC c = true)
    (hsne : s ≠ []) (hsall : ∀ c ∈ s, isDigitC c = true) :
    tryCaseKeyAt (p ++ '/' :: (d ++ '_' :: (m ++ '/' :: 'S' :: 'E' :: s))) =
      some ⟨String.mk p, String.mk d, String.mk m, String.mk s⟩ := by
  obtain ⟨ht, hd⟩ := takeWhile_all_append (p := fun c => decide (c ≠ '/')) p '/'
    (d ++ '_' :: (m ++ '/' :: 'S' :: 'E' :: s))
    (fun c hc => by simpa using hpns c hc) (by simp)
  have h8 : takeCount isDigitC 8 (d ++ '_' :: (m ++ '/' :: 'S' :: 'E' :: s)) =
      some (d, '_' :: (m ++ '/' :: 'S' :: 'E' :: s)) := by
    rw [← hdlen]
    exact takeCount_append d _ hdall
  have h2up : takeCount isUpperC 2 (m ++ '/' :: 'S' :: 'E' :: s) =
      some (m, '/' :: 'S' :: 'E' :: s) := by
    rw [← hmlen]
    exact takeCount_append m _ hmall
  have hrun : takeRun1 isDigitC s = some (s, []) := takeRun1_all s hsne hsall
  rw [tryCaseKeyAt]
  simp only [ht, hd, h8, h2up, hrun]
  rw [if_neg (by simp [List.isEmpty_iff, hpne])]

theorem fromPathAux_of_tryAt (cs : List Char) (k : CaseKey) (hne : cs ≠ [])
    (h : tryCaseKeyAt cs = some k) : caseKeyFromPathAux cs = some k := by
  cases cs with
  | nil => exact absurd rfl hne
  | cons c cs2 => simp only [caseKeyFromPathAux, h]

theorem tryRaterCaseKeyAt_build (r p d m idg s : List Char)
    (hrne : r ≠ []) (hrns : ∀ c ∈ r, c ≠ '/')
    (hpne : p ≠ []) (hpns : ∀ c ∈ p, c ≠ '/')
    (hdlen : d.length = 8) (hdall : ∀ c ∈ d, isDigitC c = true)
    (hmlen : m.length = 2) (hmall : ∀ c ∈ m, isUpperC c = true)
    (hine : idg ≠ []) (hiall : ∀ c ∈ idg, isDigitC c = true)
    (hsne : s ≠ []) (hsall : ∀ c ∈ s, isDigitC c = true) :
    tryRaterCaseKeyAt (r ++ '/' :: (p ++ '/' :: (d ++ '_' ::
        (m ++ (idg ++ '/' :: 'S' :: 'E' :: s))))) =
      some ⟨String.mk r, String.mk p, String.mk d, String.mk m,
        Int.ofNat (natOfDigits idg), String.mk s⟩ := by
  obtain ⟨ht1, hd1⟩ := takeWhile_all_append (p := fun c => decide (c ≠ '/')) r '/'
    (p ++ '/' :: (d ++ '_' :: (m ++ (idg ++ '/' :: 'S' :: 'E' :: s))))
    (fun c hc => by simpa using hrns c hc) (by simp)
  obtain ⟨ht2, hd2⟩ := takeWhile_all_append (p := fun c => decide (c ≠ '/')) p '/'
    (d ++ '_' :: (m ++ (idg ++ '/' :: 'S' :: 'E' :: s)))
    (fun c hc => by simpa using hpns c hc) (by simp)
  have h8 : takeCount isDigitC 8 (d ++ '_' :: (m ++ (idg ++ '/' :: 'S' :: 'E' :: s))) =
      some (d, '_' :: (m ++ (idg ++ '/' :: 'S' :: 'E' :: s))) := by
    rw [← hdlen]
    exact takeCount_append d _ hdall
  have h2up : takeCount isUpperC 2 (m ++ (idg ++ '/' :: 'S' :: 'E' :: s)) =
      some (m, idg ++ '/' :: 'S' :: 'E' :: s) := by
    rw [← hmlen]
    exact takeCount_append m _ hmall
  have hrun1 : takeRun1 isDigitC (idg ++ '/' :: 'S' :: 'E' :: s) =
      some (idg, '/' :: 'S' :: 'E' :: s) :=
    takeRun1_append idg '/' _ hine hiall (by decide)
  have hrun2 : takeRun1 isDigitC s = some (s, []) := takeRun1_all s hsne hsall
  rw [tryRaterCaseKeyAt]
  simp only [ht1, hd1, ht2, hd2, h8, h2up, hrun1, hrun2]
  rw [if_neg (by simp [List.isEmpty_iff, hrne]),
    if_neg (by simp [List.isEmpty_iff, hpne])]

theorem raterFromPathAux_of_tryAt (cs : List Char) (k : RaterCaseKey)
    (hne : cs ≠ []) (h : tryRaterCaseKeyAt cs = some k) :
    raterCaseKeyFromPathAux cs = some k := by
  cases cs with
  | nil => exact absurd rfl hne
  | cons c cs2 => simp only [raterCaseKeyFromPathAux, h]

/-! Claim C7: the key round trip. -/

/-- C7: on valid keys the path encodings and the pattern-based parsers
are exact inverses, and the case/rater key conversions restore the case
key: `CaseKey.from_path (k.to_path) = some k`,
`(k.to_ratercasekey r m).to_casekey = k`, and
`RaterCaseKey.from_path (rk.to_path) = some rk`. -/
theorem C7_key_round_trip (k : CaseKey) (r : String) (m : Int)
    (rk : RaterCaseKey) (hk : k.valid) (hrk : rk.valid) :
    CaseKey.from_path k.to_path = some k ∧
      (k.to_ratercasekey r m).to_casekey = k ∧
      RaterCaseKey.from_path rk.to_path = some rk := by
  obtain ⟨hpne, hpns, hdlen, hdall, hmlen, hmall, hsne, hsall⟩ := hk
  obtain ⟨rne, rns, pne, pns, dlen, dall, mlen, mall, hid0, sne, sall⟩ := hrk
  refine ⟨?_, rfl, ?_⟩
  · have hdata : (CaseKey.to_path k).data =
        k.patient_id.data ++ '/' :: (k.study_date.data ++ '_' ::
          (k.modality.data ++ '/' :: 'S' :: 'E' :: k.se_num.data)) := by
      simp only [CaseKey.to_path, String.data_append, List.append_assoc,
        show ("/" : String).data = ['/'] from rfl,
        show ("_" : String).data = ['_'] from rfl,
        show ("/SE" : String).data = ['/', 'S', 'E'] from rfl,
        List.cons_append, List.nil_append, List.singleton_append]
    rw [CaseKey.from_path, hdata]
    apply fromPathAux_of_tryAt
    · exact List.append_ne_nil_of_left_ne_nil hpne _
    · have hb := tryCaseKeyAt_build k.patient_id.data k.study_date.data
        k.modality.data k.se_num.data hpne hpns hdlen hdall hmlen hmall hsne hsall
      simpa [stringMk_data] using hb
  · have hid : (intToString rk.modality_id).data =
        natDigits rk.modality_id.natAbs := by
      rw [intToString, if_neg (not_lt.mpr hid0)]
      rfl
    have hdata2 : (RaterCaseKey.to_path rk).data =
        rk.rater_name.data ++ '/' :: (rk.patient_id.data ++ '/' ::
          (rk.study_date.data ++ '_' :: (rk.modality.data ++
            (natDigits rk.modality_id.natAbs ++ '/' :: 'S' :: 'E' ::
              rk.se_num.data)))) := by
      simp only [RaterCaseKey.to_path, String.data_append, List.append_assoc, hid,
        show ("/" : String).data = ['/'] from rfl,
        show ("_" : String).data = ['_'] from rfl,
        show ("/SE" : String).data = ['/', 'S', 'E'] from rfl,
        List.cons_append, List.nil_append, List.singleton_append]
    rw [RaterCaseKey.from_path, hdata2]
    apply raterFromPathAux_of_tryAt
    · exact List.append_ne_nil_of_left_ne_nil rne _
    · have hb := tryRaterCaseKeyAt_build rk.rater_name.data rk.patient_id.data
        rk.study_date.data rk.modality.data (natDigits rk.modality_id.natAbs)
        rk.se_num.data rne rns pne pns dlen dall mlen mall
        (natDigits_ne_nil _) (natDigits_all_digits _) sne sall
      rw [natOfDigits_natDigits] at hb
      simpa [stringMk_data, Int.natAbs_of_nonneg hid0] using hb

/-- C7 witness: the concrete keys round-trip through their paths. -/
theorem C7_key_round_trip_witness :
    CaseKey.from_path exCase.to_path = some exCase ∧
      (exCase.to_ratercasekey "rater01" 0).to_casekey = exCase ∧
      RaterCaseKey.from_path exRater.to_path = some exRater :=
  C7_key_round_trip exCase "rater01" 0 exRater (by decide) (by decide)

/-! Hash model lemmas for claim C10. -/

theorem rotl31_lt {x : Nat} (h : x < M64) : rotl31 x < M64 := by
  rw [rotl31, M64] at *
  have h1 : x % 2 ^ 33 < 2 ^ 33 := Nat.mod_lt _ (by norm_num)
  have h2 : x / 2 ^ 33 < 2 ^ 31 := by omega
  have h3 : (x % 2 ^ 33) * 2 ^ 31 ≤ (2 ^ 33 - 1) * 2 ^ 31 :=
    Nat.mul_le_mul_right _ (by omega)
  omega

theorem rotl31_inj {x y : Nat} (hx : x < M64) (hy : y < M64)
    (h : rotl31 x = rotl31 y) : x = y := by
  rw [rotl31, rotl31] at h
  rw [M64] at hx hy
  have hx1 : x % 2 ^ 33 < 2 ^ 33 := Nat.mod_lt _ (by norm_num)
  have hx2 : x / 2 ^ 33 < 2 ^ 31 := by omega
  have hy1 : y % 2 ^ 33 < 2 ^ 33 := Nat.mod_lt _ (by norm_num)
  have hy2 : y / 2 ^ 33 < 2 ^ 31 := by omega
  omega

theorem addc_cancel {c x y : Nat} (hx : x < M64) (hy : y < M64)
    (h : (x + c) % M64 = (y + c) % M64) : x = y := by
  have h2 : x % M64 = y % M64 := Nat.ModEq.add_right_cancel' c h
  rwa [Nat.mod_eq_of_lt hx, Nat.mod_eq_of_lt hy] at h2

theorem mulP1_cancel {x y : Nat} (hx : x < M64) (hy : y < M64)
    (h : (x * xxPrime1) % M64 = (y * xxPrime1) % M64) : x = y := by
  have hco : Nat.gcd M64 xxPrime1 = 1 := by decide
  have h2 : x % M64 = y % M64 := Nat.ModEq.cancel_right_of_coprime hco h
  rwa [Nat.mod_eq_of_lt hx, Nat.mod_eq_of_lt hy] at h2

theorem M64_pos : 0 < M64 := by decide

theorem laneStep_lt (acc lane : Nat) : laneStep acc lane < M64 := by
  rw [laneStep]
  exact Nat.mod_lt _ M64_pos

theorem laneStep_inj_acc {x y : Nat} {lane : Nat} (hx : x < M64) (hy : y < M64)
    (h : laneStep x lane = laneStep y lane) : x = y := by
  rw [laneStep, laneStep] at h
  have h2 := mulP1_cancel (rotl31_lt (Nat.mod_lt _ M64_pos))
    (rotl31_lt (Nat.mod_lt _ M64_pos)) h
  have h3 := rotl31_inj (Nat.mod_lt _ M64_pos) (Nat.mod_lt _ M64_pos) h2
  exact addc_cancel hx hy h3

theorem ite_ne3 {a b c t u : Nat} (hab : a ≠ b) (hac : a ≠ c) (hbc : b ≠ c) :
    (if a = t then u else a) ≠ (if b = t then u else b) ∨
      (if a = t then u else a) ≠ (if c = t then u else c) ∨
      (if b = t then u else b) ≠ (if c = t then u else c) := by
  by_cases ha : a = t <;> by_cases hb : b = t <;> by_cases hc : c = t
  · exact absurd (ha.trans hb.symm) hab
  · exact absurd (ha.trans hb.symm) hab
  · exact absurd (ha.trans hc.symm) hac
  · rw [if_pos ha, if_neg hb, if_neg hc]
    exact Or.inr (Or.inr hbc)
  · exact absurd (hb.trans hc.symm) hbc
  · rw [if_neg ha, if_pos hb, if_neg hc]
    exact Or.inr (Or.inl hac)
  · rw [if_neg ha, if_neg hb, if_pos hc]
    exact Or.inl hab
  · rw [if_neg ha, if_neg hb, if_neg hc]
    exact Or.inl hab

theorem tupleFinish_ne3 (K hN g1 g2 g3 : Nat)
    (h1 : g1 < M64) (h2 : g2 < M64) (h3 : g3 < M64)
    (d12 : g1 ≠ g2) (d13 : g1 ≠ g3) (d23 : g2 ≠ g3) :
    tupleFinish K (laneStep g1 hN) ≠ tupleFinish K (laneStep g2 hN) ∨
      tupleFinish K (laneStep g1 hN) ≠ tupleFinish K (laneStep g3 hN) ∨
      tupleFinish K (laneStep g2 hN) ≠ tupleFinish K (laneStep g3 hN) := by
  have a12 : laneStep g1 hN ≠ laneStep g2 hN :=
    fun h => d12 (laneStep_inj_acc h1 h2 h)
  have a13 : laneStep g1 hN ≠ laneStep g3 hN :=
    fun h => d13 (laneStep_inj_acc h1 h3 h)
  have a23 : laneStep g2 hN ≠ laneStep g3 hN :=
    fun h => d23 (laneStep_inj_acc h2 h3 h)
  have b12 : (laneStep g1 hN + K) % M64 ≠ (laneStep g2 hN + K) % M64 :=
    fun h => a12 (addc_cancel (laneStep_lt _ _) (laneStep_lt _ _) h)
  have b13 : (laneStep g1 hN + K) % M64 ≠ (laneStep g3 hN + K) % M64 :=
    fun h => a13 (addc_cancel (laneStep_lt _ _) (laneStep_lt _ _) h)
  have b23 : (laneStep g2 hN + K) % M64 ≠ (laneStep g3 hN + K) % M64 :=
    fun h => a23 (addc_cancel (laneStep_lt _ _) (laneStep_lt _ _) h)
  simp only [tupleFinish]
  exact ite_ne3 b12 b13 b23

/-! Claim C10: equality is not a congruence for the hash. -/

/-- C10: Python equality of `Lesion` (and `Response`) compares the radius
with `math.isclose` while the frozen-dataclass hash is the exact-field
tuple hash; whatever the (seed-dependent) hash of the shared name string
is, there exist two lesions (and two responses) that compare equal yet
hash differently.  The radii `2^45`, `2^45 + 1`, `2^45 + 2` are exactly
representable floats, pairwise within the default `isclose` tolerance,
and give pairwise distinct hash lanes, so after the injective tuple-hash
accumulator at most the final reserved-value remap can merge one pair —
some pair always remains distinct. -/
theorem C10_eq_hash_mismatch (hName : Nat) :
    (∃ l1 l2 : Lesion, Lesion.pyEq l1 l2 = true ∧ l1 ≠ l2 ∧
      lesionPyHash hName l1 ≠ lesionPyHash hName l2) ∧
    (∃ p1 p2 : Response, Response.pyEq p1 p2 = true ∧ p1 ≠ p2 ∧
      responsePyHash hName p1 ≠ responsePyHash hName p2) := by
  have h0 : pyHashFloat (0 : ℚ) = 0 := by with_unfolding_all decide
  have hc0 : coordsPyHash ⟨0, 0, 0⟩ = 3010437511937009226 := by
    show pyTupleHash [pyHashFloat 0, pyHashFloat 0, pyHashFloat 0] = _
    rw [h0]
    decide
  have hq1 : pyHashFloat (35184372088832 : ℚ) = 35184372088832 := by
    with_unfolding_all decide
  have hq2 : pyHashFloat (35184372088833 : ℚ) = 35184372088833 := by
    with_unfolding_all decide
  have hq3 : pyHashFloat (35184372088834 : ℚ) = 35184372088834 := by
    with_unfolding_all decide
  have hp1 : pyHashFloat (1 : ℚ) = 1 := by with_unfolding_all decide
  constructor
  · have e1 : ∀ q : ℚ, lesionPyHash hName ⟨⟨0, 0, 0⟩, q, "a"⟩ =
        tupleFinish (3 ^^^ (xxPrime5 ^^^ 3527539))
          (laneStep (laneStep (laneStep xxPrime5 (coordsPyHash ⟨0, 0, 0⟩))
            (pyHashFloat q)) hName) :=
      fun _ => rfl
    have key := tupleFinish_ne3 (3 ^^^ (xxPrime5 ^^^ 3527539)) hName
      (laneStep (laneStep xxPrime5 3010437511937009226) 35184372088832)
      (laneStep (laneStep xxPrime5 3010437511937009226) 35184372088833)
      (laneStep (laneStep xxPrime5 3010437511937009226) 35184372088834)
      (laneStep_lt _ _) (laneStep_lt _ _) (laneStep_lt _ _)
      (by decide) (by decide) (by decide)
    rcases key with h | h | h
    · exact ⟨⟨⟨0, 0, 0⟩, 35184372088832, "a"⟩, ⟨⟨0, 0, 0⟩, 35184372088833, "a"⟩,
        by with_unfolding_all decide, by with_unfolding_all decide,
        by simp only [e1, hc0, hq1, hq2]; exact h⟩
    · exact ⟨⟨⟨0, 0, 0⟩, 35184372088832, "a"⟩, ⟨⟨0, 0, 0⟩, 35184372088834, "a"⟩,
        by with_unfolding_all decide, by with_unfolding_all decide,
        by simp only [e1, hc0, hq1, hq3]; exact h⟩
    · exact ⟨⟨⟨0, 0, 0⟩, 35184372088833, "a"⟩, ⟨⟨0, 0, 0⟩, 35184372088834, "a"⟩,
        by with_unfolding_all decide, by with_unfolding_all decide,
        by simp only [e1, hc0, hq2, hq3]; exact h⟩
  · have e2 : ∀ q : ℚ, responsePyHash hName ⟨⟨0, 0, 0⟩, 1, q, "a"⟩ =
        tupleFinish (4 ^^^ (xxPrime5 ^^^ 3527539))
          (laneStep (laneStep (laneStep (laneStep xxPrime5 (coordsPyHash ⟨0, 0, 0⟩))
            (pyHashFloat 1)) (pyHashFloat q)) hName) :=
      fun _ => rfl
    have key := tupleFinish_ne3 (4 ^^^ (xxPrime5 ^^^ 3527539)) hName
      (laneStep (laneStep (laneStep xxPrime5 3010437511937009226) 1) 35184372088832)
      (laneStep (laneStep (laneStep xxPrime5 3010437511937009226) 1) 35184372088833)
      (laneStep (laneStep (laneStep xxPrime5 3010437511937009226) 1) 35184372088834)
      (laneStep_lt _ _) (laneStep_lt _ _) (laneStep_lt _ _)
      (by decide) (by decide) (by decide)
    rcases key with h | h | h
    · exact ⟨⟨⟨0, 0, 0⟩, 1, 35184372088832, "a"⟩, ⟨⟨0, 0, 0⟩, 1, 35184372088833, "a"⟩,
        by with_unfolding_all decide, by with_unfolding_all decide,
        by simp only [e2, hc0, hp1, hq1, hq2]; exact h⟩
    · exact ⟨⟨⟨0, 0, 0⟩, 1, 35184372088832, "a"⟩, ⟨⟨0, 0, 0⟩, 1, 35184372088834, "a"⟩,
        by with_unfolding_all decide, by with_unfolding_all decide,
        by simp only [e2, hc0, hp1, hq1, hq3]; exact h⟩
    · exact ⟨⟨⟨0, 0, 0⟩, 1, 35184372088833, "a"⟩, ⟨⟨0, 0, 0⟩, 1, 35184372088834, "a"⟩,
        by with_unfolding_all decide, by with_unfolding_all decide,
        by simp only [e2, hc0, hp1, hq2, hq3]; exact h⟩
